import Mathlib

set_option maxHeartbeats 1000000

namespace AlbumProcessor

/-!
Shallow embedding of album_processor.py: the CSV-driven album sharing tool.
Server albums, the user directory, CSV ingestion, the per-album reconcile
loop (removals then share/update calls), and the CSV exporter are modelled
as pure functions; network success/failure of each mutating call is an
oracle parameter, and the sequence of issued API calls is returned
explicitly.
-/

/-- Python str.lower (per character). -/
def strLower (s : String) : String := ⟨s.data.map Char.toLower⟩

/-- Python str.strip: drop leading and trailing whitespace. -/
def strTrim (s : String) : String :=
  ⟨(((s.data.dropWhile Char.isWhitespace).reverse).dropWhile Char.isWhitespace).reverse⟩

/-- Dict-style lookup in an association list where a later binding
overwrites an earlier one (Python dict insert semantics). -/
def dlookup (l : List (String × String)) (k : String) : Option String :=
  match l with
  | [] => none
  | p :: t =>
    match dlookup t k with
    | some v => some v
    | none => if p.1 = k then some p.2 else none

/-- Keys of a dict built by successive insertion, in first-insertion order
(Python dict key order). -/
def firstKeys : List (String × String) → List String
  | [] => []
  | p :: t => p.1 :: (firstKeys t).filter (fun x => !(decide (x = p.1)))

/-- Insert into a set kept as a duplicate-free list (Python set.add,
determinised to insertion order). -/
def setIns {α : Type} [DecidableEq α] (l : List α) (x : α) : List α :=
  if x ∈ l then l else l ++ [x]

/-- Python list.index as a total function: index of the first occurrence,
none when absent (the ValueError case). -/
def pyIndex (l : List String) (x : String) : Option Nat :=
  match l with
  | [] => none
  | a :: t => if a = x then some 0 else (pyIndex t x).map (· + 1)

/-- One share entry of an album as returned by the server: the role string
and the sharing user's email. -/
structure AlbumUserInfo where
  role : String
  email : String
deriving DecidableEq

/-- An album as returned by the server (assets omitted). -/
structure Album where
  id : String
  albumName : String
  albumUsers : List AlbumUserInfo
deriving DecidableEq

/-- The user directory built by get_users: (lowercased email, user id)
pairs; lookups take the last binding (dict overwrite). -/
abbrev Directory := List (String × String)

/-- Value stored per album id during ingestion: the accumulated set of
(email, role) pairs and the role of the first row seen for the album. -/
structure BatchData where
  users : List (String × String)
  role : String
deriving DecidableEq

/-- The album_data mapping of process_share_albums, in insertion order. -/
abbrev AlbumData := List (String × BatchData)

/-- The (email, role) pairs contributed by the user cells of one row:
cells at the given indices that exist, trimmed and lowercased, empty ones
dropped, each paired with the row's role. -/
def rowPairs (role : String) (userIdxs : List Nat) (row : List String) :
    List (String × String) :=
  userIdxs.filterMap fun i =>
    match row.get? i with
    | some cell =>
      let e := strLower (strTrim cell)
      if e = "" then none else some (e, role)
    | none => none

/-- Add pairs to the users set of the entry keyed by the given album id. -/
def adAdd (ad : AlbumData) (k : String) (ps : List (String × String)) : AlbumData :=
  ad.map fun ent =>
    if ent.1 = k then (ent.1, ⟨ps.foldl setIns ent.2.users, ent.2.role⟩) else ent

/-- Ingest one data row: an empty row is skipped; reading the album-id or
role cell out of range is the IndexError case (none); a row whose trimmed
album id or trimmed-lowercased role is empty is skipped; otherwise the
album entry is created if new and the row's user pairs are added. -/
def ingestRow (idIdx roleIdx : Nat) (userIdxs : List Nat) (ad : AlbumData)
    (row : List String) : Option AlbumData :=
  if row = [] then some ad
  else
    match row.get? idIdx, row.get? roleIdx with
    | some cid, some crole =>
      let album_id := strTrim cid
      let role := strLower (strTrim crole)
      if album_id = "" ∨ role = "" then some ad
      else
        let ad1 := if album_id ∈ ad.map Prod.fst then ad
                   else ad ++ [(album_id, ⟨[], role⟩)]
        some (adAdd ad1 album_id (rowPairs role userIdxs row))
    | _, _ => none

/-- Ingest a list of data rows left to right; an IndexError aborts. -/
def ingestRows (idIdx roleIdx : Nat) (userIdxs : List Nat) (ad : AlbumData) :
    List (List String) → Option AlbumData
  | [] => some ad
  | row :: t =>
    match ingestRow idIdx roleIdx userIdxs ad row with
    | some ad2 => ingestRows idIdx roleIdx userIdxs ad2 t
    | none => none

/-- The (lowercased email, verbatim role) entries derived from an album's
share list; entries with empty email or empty role are dropped. -/
def currentEntries (a : Album) : List (String × String) :=
  a.albumUsers.filterMap fun u =>
    let e := strLower u.email
    if e ≠ "" ∧ u.role ≠ "" then some (e, u.role) else none

/-- Album detail fetch: first server album with the requested id. -/
def lookupAlbum (server : List Album) (k : String) : Option Album :=
  server.find? fun a => decide (a.id = k)

/-- get_current_album_users: the current email-to-role mapping of an album;
a missing album yields the empty mapping. -/
def get_current_album_users (server : List Album) (k : String) : List (String × String) :=
  match lookupAlbum server k with
  | some a => currentEntries a
  | none => []

/-- A mutating API call issued during reconciliation, with the email it was
resolved from recorded alongside the transported fields. -/
inductive Call where
  | removeUser (albumId email userId : String)
  | shareUser (albumId email userId role : String)
deriving DecidableEq

def callEmail : Call → String
  | .removeUser _ e _ => e
  | .shareUser _ e _ _ => e

def isShareCall : Call → Bool
  | .shareUser _ _ _ _ => true
  | .removeUser _ _ _ => false

def isRemoveCall : Call → Bool
  | .removeUser _ _ _ => true
  | .shareUser _ _ _ _ => false

/-- Success oracle for remove_user_from_album calls. -/
abbrev RemoveOracle := String → String → Bool

/-- Success oracle for share_album_with_user calls. -/
abbrev ShareOracle := String → String → String → Bool

/-- Outcome of the removal loop of one album. -/
structure RemRes where
  calls : List Call
  removed : Nat
  failures : Nat
deriving DecidableEq

/-- The removal loop: each email resolvable in the directory gets a remove
call (counted as success or failure); unresolvable emails are skipped. -/
def removalPhase (dir : Directory) (rOk : RemoveOracle) (aid : String) :
    List String → RemRes
  | [] => ⟨[], 0, 0⟩
  | e :: t =>
    let rest := removalPhase dir rOk aid t
    match dlookup dir e with
    | some uid =>
      if rOk aid uid then
        ⟨.removeUser aid e uid :: rest.calls, rest.removed + 1, rest.failures⟩
      else
        ⟨.removeUser aid e uid :: rest.calls, rest.removed, rest.failures + 1⟩
    | none => rest

/-- Outcome of the share/update loop of one album. -/
structure ShareRes where
  calls : List Call
  succ : Nat
  failed : Nat
  notFound : List String
deriving DecidableEq

/-- The share/update loop: a resolvable (email, role) pair whose current
role differs gets a share call; a matching current role is a no-op; an
unresolvable email is recorded and counted as a failed share. -/
def sharePhase (dir : Directory) (sOk : ShareOracle) (aid : String)
    (current : List (String × String)) : List (String × String) → ShareRes
  | [] => ⟨[], 0, 0, []⟩
  | (e, r) :: t =>
    let rest := sharePhase dir sOk aid current t
    match dlookup dir e with
    | some uid =>
      if dlookup current e = some r then rest
      else if sOk aid uid r then
        ⟨.shareUser aid e uid r :: rest.calls, rest.succ + 1, rest.failed, rest.notFound⟩
      else
        ⟨.shareUser aid e uid r :: rest.calls, rest.succ, rest.failed + 1, rest.notFound⟩
    | none => ⟨rest.calls, rest.succ, rest.failed + 1, e :: rest.notFound⟩

/-- Emails slated for removal: current keys absent from the desired set. -/
def toRemove (current : List (String × String)) (users : List (String × String)) :
    List String :=
  (firstKeys current).filter fun e => !(decide (e ∈ users.map Prod.fst))

/-- Outcome of reconciling one album. -/
structure AlbumRes where
  calls : List Call
  removed : Nat
  failures : Nat
  succ : Nat
  failed : Nat
  notFound : List String
deriving DecidableEq

/-- Reconcile one album: the removal loop runs first, then the share loop;
the issued calls are the removal calls followed by the share calls. -/
def reconcileOneAlbum (dir : Directory) (rOk : RemoveOracle) (sOk : ShareOracle)
    (aid : String) (current : List (String × String))
    (users : List (String × String)) : AlbumRes :=
  let rem := removalPhase dir rOk aid (toRemove current users)
  let sh := sharePhase dir sOk aid current users
  ⟨rem.calls ++ sh.calls, rem.removed, rem.failures, sh.succ, sh.failed, sh.notFound⟩

/-- The stats dictionary of process_share_albums. -/
structure Stats where
  total_albums : Nat
  successful_shares : Nat
  failed_shares : Nat
  users_removed : Nat
  removal_failures : Nat
  users_not_found : List String
deriving DecidableEq

/-- Deduplicate keeping first occurrences (set built by insertion). -/
def dedupF (l : List String) : List String := l.foldl setIns []

/-- Reconcile every ingested album in order against the current state
fetched per album id, concatenating calls and accumulating stats. -/
def runReconcile (dir : Directory) (rOk : RemoveOracle) (sOk : ShareOracle)
    (cur : String → List (String × String)) : AlbumData → List Call × Stats
  | [] => ([], ⟨0, 0, 0, 0, 0, []⟩)
  | (k, d) :: t =>
    let res := reconcileOneAlbum dir rOk sOk k (cur k) d.users
    let rest := runReconcile dir rOk sOk cur t
    (res.calls ++ rest.1,
      ⟨rest.2.total_albums + 1,
       res.succ + rest.2.successful_shares,
       res.failed + rest.2.failed_shares,
       res.removed + rest.2.users_removed,
       res.failures + rest.2.removal_failures,
       dedupF (res.notFound ++ rest.2.users_not_found)⟩)

/-- Observable outcome of a share-albums run: the process exit code, the
mutating calls issued, and the final stats (none when the run aborted or
returned before reaching the reconciliation loop). -/
structure RunOutcome where
  exitCode : Nat
  calls : List Call
  stats : Option Stats
deriving DecidableEq

/-- process_share_albums: a missing file or an empty file (header read
fails) exits 1; a header missing one of the three fixed columns prints an
error and returns normally (exit 0, nothing processed); an IndexError
while reading rows exits 1; otherwise the albums are reconciled and the
process exits 0. -/
def process_share_albums (server : List Album) (dir : Directory)
    (rOk : RemoveOracle) (sOk : ShareOracle)
    (file : Option (List (List String))) : RunOutcome :=
  match file with
  | none => ⟨1, [], none⟩
  | some [] => ⟨1, [], none⟩
  | some (headers :: rows) =>
    match pyIndex headers "AlbumName", pyIndex headers "AlbumId", pyIndex headers "Role" with
    | some _, some idIdx, some roleIdx =>
      let userIdxs := List.range' 3 (headers.length - 3)
      match ingestRows idIdx roleIdx userIdxs [] rows with
      | some ad =>
        let out := runReconcile dir rOk sOk (get_current_album_users server) ad
        ⟨0, out.1, some out.2⟩
      | none => ⟨1, [], none⟩
    | _, _, _ => ⟨0, [], none⟩

/-- One entry of the processed_albums list built by the exporter. -/
structure ProcessedRow where
  name : String
  id : String
  role : String
  users : List String
deriving DecidableEq

/-- Fold step grouping one share entry under its role: the role's bucket is
created on first sight, and the email is appended when non-empty. -/
def addRoleUser (acc : List (String × List String)) (u : AlbumUserInfo) :
    List (String × List String) :=
  let acc1 := if u.role ∈ acc.map Prod.fst then acc else acc ++ [(u.role, [])]
  if u.email = "" then acc1
  else acc1.map fun p => if p.1 = u.role then (p.1, p.2 ++ [u.email]) else p

/-- The role_users grouping of an album's share entries. -/
def role_users_of (l : List AlbumUserInfo) : List (String × List String) :=
  l.foldl addRoleUser []

/-- The processed_albums entries contributed by one album: a single empty
row for an unshared album, else one row per role bucket. -/
def processedOf (a : Album) : List ProcessedRow :=
  if a.albumUsers = [] then [⟨a.albumName, a.id, "", []⟩]
  else (role_users_of a.albumUsers).map fun p => ⟨a.albumName, a.id, p.1, p.2⟩

/-- The full processed_albums list of the export. -/
def processed_albums (albums : List Album) : List ProcessedRow :=
  (albums.map processedOf).flatten

/-- The widest per-row user count across the export. -/
def max_users (ps : List ProcessedRow) : Nat :=
  ps.foldl (fun m p => max m p.users.length) 0

/-- Header row of the export, with one User column per unit of width. -/
def exportHeader (m : Nat) : List String :=
  ["AlbumName", "AlbumId", "Role"] ++ (List.range m).map (fun i => "User " ++ toString (i + 1))

/-- A data row of the export, padded with empty cells to the global width. -/
def exportRow (m : Nat) (p : ProcessedRow) : List String :=
  [p.name, p.id, p.role] ++ p.users ++ List.replicate (m - p.users.length) ""

/-- process_albums_to_csv: the table written for a non-empty album list
(header row then one row per processed entry); no file for no albums. -/
def process_albums_to_csv (albums : List Album) : Option (List (List String)) :=
  if albums = [] then none
  else
    let ps := processed_albums albums
    let m := max_users ps
    some (exportHeader m :: ps.map (exportRow m))

/-- Round trip: run share-albums on the file produced by the exporter
against the same (unchanged) server state. -/
def roundTrip (server : List Album) (dir : Directory) (rOk : RemoveOracle)
    (sOk : ShareOracle) : RunOutcome :=
  process_share_albums server dir rOk sOk (process_albums_to_csv server)

/-- Delete every binding of a key (the server removing a user). -/
def delKey : List (String × String) → String → List (String × String)
  | [], _ => []
  | p :: t, e => if p.1 = e then delKey t e else p :: delKey t e

/-- Effect of one successful call on an album's email-to-role mapping:
removal deletes the email, share upserts it with the sent role. -/
def applyCall (l : List (String × String)) : Call → List (String × String)
  | .removeUser _ e _ => delKey l e
  | .shareUser _ e _ r => delKey l e ++ [(e, r)]

/-- Effect of a sequence of successful calls, applied in order. -/
def applyCalls (l : List (String × String)) (cs : List Call) : List (String × String) :=
  cs.foldl applyCall l

/-- The last call in a sequence whose recorded email is the given one. -/
def lastCallFor (e : String) (cs : List Call) : Option Call :=
  cs.foldl (fun acc c => if callEmail c = e then some c else acc) none

/-- Server state after a reconcile run in which every call succeeds: each
ingested album's mapping is updated by the calls reconciliation issues for
it; other albums are untouched. -/
def postAlbums (dir : Directory) (cur : String → List (String × String))
    (ad : AlbumData) : String → List (String × String) :=
  fun k =>
    match ad.find? (fun ent => decide (ent.1 = k)) with
    | some ent =>
      applyCalls (cur k)
        (reconcileOneAlbum dir (fun _ _ => true) (fun _ _ _ => true) k (cur k) ent.2.users).calls
    | none => cur k

/-- Emails of the removal calls in a call list. -/
def removeEmails (cs : List Call) : List String :=
  cs.filterMap fun c =>
    match c with
    | .removeUser _ e _ => some e
    | .shareUser _ _ _ _ => none

/-- Emails of the share calls in a call list. -/
def shareEmails (cs : List Call) : List String :=
  cs.filterMap fun c =>
    match c with
    | .shareUser _ e _ _ => some e
    | .removeUser _ _ _ => none

/-- Whether a call is a share call that the oracle fails. -/
def shareCallFailed (sOk : ShareOracle) : Call → Bool
  | .shareUser a _ u r => !(sOk a u r)
  | .removeUser _ _ _ => false

/-- The removal call the inner loop issues for one email, if any. -/
def removeDecision (dir : Directory) (aid : String) (e : String) : Option Call :=
  (dlookup dir e).map (fun uid => Call.removeUser aid e uid)

/-- The share call the inner loop issues for one desired pair, if any. -/
def shareDecision (dir : Directory) (aid : String) (cur : List (String × String))
    (p : String × String) : Option Call :=
  match dlookup dir p.1 with
  | some uid =>
    if dlookup cur p.1 = some p.2 then none else some (.shareUser aid p.1 uid p.2)
  | none => none

/-- A desired pair is sound for an album when it is the normalized image
of one of the album's valid share entries. -/
def soundPair (a : Album) (pr : String × String) : Prop :=
  ∃ u ∈ a.albumUsers, u.email ≠ "" ∧ u.role ≠ "" ∧ pr = (strLower u.email, u.role)

/-- An ingested album entry is good for a server when its key is a
non-empty album id of the server and all its pairs are sound for that
album. -/
def entGood (server : List Album) (ent : String × BatchData) : Prop :=
  ent.1 ≠ "" ∧ ∃ a ∈ server, a.id = ent.1 ∧ ∀ pr ∈ ent.2.users, soundPair a pr

/-- A processed export row is good for a server of width m: its id and
role are normalization-invariant, its users fit the width, are trimmed and
non-empty, and (when the row carries a role) each user comes from a valid
share entry of the row's album with that role. -/
def rowGood (server : List Album) (m : Nat) (p : ProcessedRow) : Prop :=
  strTrim p.id = p.id ∧ strLower (strTrim p.role) = p.role ∧ p.users.length ≤ m ∧
    (∀ E ∈ p.users, strTrim E = E ∧ E ≠ "") ∧
    ∃ a ∈ server, a.id = p.id ∧ (p.role ≠ "" → ∀ E ∈ p.users,
      ∃ u ∈ a.albumUsers, u.email ≠ "" ∧ u.role ≠ "" ∧
        strLower u.email = strLower E ∧ u.role = p.role)

/-! Basic lemmas about the helper structures. -/

theorem ingestRow_nil (i r : Nat) (u : List Nat) (ad : AlbumData) :
    ingestRow i r u ad [] = some ad := rfl

theorem mem_firstKeys {l : List (String × String)} {e : String} :
    e ∈ firstKeys l ↔ e ∈ l.map Prod.fst := by
  induction l with
  | nil => simp [firstKeys]
  | cons p t ih =>
    simp only [firstKeys, List.mem_cons, List.mem_filter, List.map_cons, ih,
      Bool.not_eq_true', decide_eq_false_iff_not]
    constructor
    · rintro (h | ⟨h1, _⟩)
      · exact Or.inl h
      · exact Or.inr h1
    · rintro (h | h)
      · exact Or.inl h
      · by_cases he : e = p.1
        · exact Or.inl he
        · exact Or.inr ⟨h, he⟩

theorem removalPhase_calls_eq (dir : Directory) (rOk : RemoveOracle) (aid : String)
    (es : List String) :
    (removalPhase dir rOk aid es).calls = es.filterMap (removeDecision dir aid) := by
  induction es with
  | nil => rfl
  | cons e t ih =>
    simp only [removalPhase, List.filterMap_cons, removeDecision]
    cases hd : dlookup dir e with
    | none => simpa using ih
    | some uid =>
      by_cases hok : rOk aid uid <;> simp [hok, ih]

theorem sharePhase_calls_eq (dir : Directory) (sOk : ShareOracle) (aid : String)
    (cur : List (String × String)) (us : List (String × String)) :
    (sharePhase dir sOk aid cur us).calls = us.filterMap (shareDecision dir aid cur) := by
  induction us with
  | nil => rfl
  | cons p t ih =>
    obtain ⟨e, r⟩ := p
    simp only [sharePhase, List.filterMap_cons, shareDecision]
    cases hd : dlookup dir e with
    | none => simpa using ih
    | some uid =>
      by_cases hc : dlookup cur e = some r
      · simp [hc, ih]
      · by_cases hok : sOk aid uid r <;> simp [hc, hok, ih]

theorem mem_removalPhase_calls {dir : Directory} {rOk : RemoveOracle} {aid : String}
    {es : List String} {c : Call} :
    c ∈ (removalPhase dir rOk aid es).calls ↔
      ∃ e uid, c = Call.removeUser aid e uid ∧ e ∈ es ∧ dlookup dir e = some uid := by
  rw [removalPhase_calls_eq, List.mem_filterMap]
  constructor
  · rintro ⟨e, he, hdec⟩
    cases hval : dlookup dir e with
    | none => rw [removeDecision, hval] at hdec; exact absurd hdec (by simp)
    | some uid =>
      rw [removeDecision, hval] at hdec
      simp only [Option.map_some', Option.some_inj] at hdec
      exact ⟨e, uid, hdec.symm, he, hval⟩
  · rintro ⟨e, uid, h1, h2, h3⟩
    exact ⟨e, h2, by simp [removeDecision, h3, h1]⟩

theorem mem_sharePhase_calls {dir : Directory} {sOk : ShareOracle} {aid : String}
    {cur : List (String × String)} {us : List (String × String)} {c : Call} :
    c ∈ (sharePhase dir sOk aid cur us).calls ↔
      ∃ e uid r, c = Call.shareUser aid e uid r ∧ (e, r) ∈ us ∧
        dlookup dir e = some uid ∧ dlookup cur e ≠ some r := by
  rw [sharePhase_calls_eq, List.mem_filterMap]
  constructor
  · rintro ⟨p, hp, hdec⟩
    obtain ⟨e, r⟩ := p
    cases hval : dlookup dir e with
    | none => rw [shareDecision, hval] at hdec; exact absurd hdec (by simp)
    | some uid =>
      rw [shareDecision, hval] at hdec
      simp only at hdec
      by_cases hc : dlookup cur e = some r
      · rw [if_pos hc] at hdec; exact absurd hdec (by simp)
      · rw [if_neg hc] at hdec
        simp only [Option.some_inj] at hdec
        exact ⟨e, uid, r, hdec.symm, hp, hval, hc⟩
  · rintro ⟨e, uid, r, h1, h2, h3, h4⟩
    refine ⟨(e, r), h2, ?_⟩
    simp [shareDecision, h3, h4, h1]

theorem mem_toRemove {current users : List (String × String)} {e : String} :
    e ∈ toRemove current users ↔
      e ∈ current.map Prod.fst ∧ e ∉ users.map Prod.fst := by
  simp only [toRemove, List.mem_filter, mem_firstKeys, Bool.not_eq_true',
    decide_eq_false_iff_not]

/-- C1 (amended): a header missing one of the three fixed columns makes the
share-albums run return before any ingestion or reconciliation: no calls,
no stats, and the process exits with code 0 (the handler returns normally
rather than calling sys.exit). -/
theorem c1_malformed_header_aborts (server : List Album) (dir : Directory)
    (rOk : RemoveOracle) (sOk : ShareOracle) (headers : List String)
    (rows : List (List String))
    (h : pyIndex headers "AlbumName" = none ∨ pyIndex headers "AlbumId" = none ∨
      pyIndex headers "Role" = none) :
    process_share_albums server dir rOk sOk (some (headers :: rows)) = ⟨0, [], none⟩ := by
  simp only [process_share_albums]
  rcases h with h | h | h <;> rw [h] <;>
    cases pyIndex headers "AlbumName" <;> cases pyIndex headers "AlbumId" <;>
    cases pyIndex headers "Role" <;> simp_all

/-- Witness for C1: a concrete file whose header lacks the Role column. -/
theorem c1_malformed_header_aborts_witness :
    (pyIndex ["AlbumName", "AlbumId"] "Role" = none) ∧
      process_share_albums [] [] (fun _ _ => true) (fun _ _ _ => true)
        (some [["AlbumName", "AlbumId"], ["n", "a1", "viewer", "a@x.com"]]) = ⟨0, [], none⟩ :=
  ⟨by decide,
    c1_malformed_header_aborts [] [] (fun _ _ => true) (fun _ _ _ => true)
      ["AlbumName", "AlbumId"] [["n", "a1", "viewer", "a@x.com"]]
      (Or.inr (Or.inr (by decide)))⟩

/-- Counterexample for C1 as stated: with a malformed header the process
exit code is 0, not 1. -/
theorem c1_exit_code_counterexample :
    (process_share_albums [] [] (fun _ _ => true) (fun _ _ _ => true)
      (some [["AlbumName", "AlbumId"], ["n", "a1", "viewer", "a@x.com"]])).exitCode ≠ 1 := by
  decide

/-- C7 (amended): a data row that is empty, or whose album-id and role
cells are both readable but trim to an empty album id or an empty role, is
skipped without error: the accumulated album data is unchanged, nothing is
counted, and ingestion continues with the remaining rows. -/
theorem c7_malformed_row_skipped (i r : Nat) (u : List Nat) (ad : AlbumData)
    (row : List String) (rest : List (List String))
    (h : row = [] ∨ ∃ c1 c2, row.get? i = some c1 ∧ row.get? r = some c2 ∧
      (strTrim c1 = "" ∨ strLower (strTrim c2) = "")) :
    ingestRows i r u ad (row :: rest) = ingestRows i r u ad rest := by
  have hrow : ingestRow i r u ad row = some ad := by
    rcases h with h | ⟨c1, c2, h1, h2, h3⟩
    · subst h; rfl
    · have hr : row ≠ [] := by
        intro hcon; subst hcon; simp at h1
      simp only [ingestRow, if_neg hr, h1, h2]
      rw [if_pos h3]
  simp only [ingestRows, hrow]

/-- Witness for C7: a concrete row with an empty role cell is skipped and
ingestion continues. -/
theorem c7_malformed_row_skipped_witness :
    ((["n", "a1", " ", "x@x.com"] : List String) = [] ∨
      ∃ c1 c2, (["n", "a1", " ", "x@x.com"] : List String).get? 1 = some c1 ∧
        (["n", "a1", " ", "x@x.com"] : List String).get? 2 = some c2 ∧
        (strTrim c1 = "" ∨ strLower (strTrim c2) = "")) ∧
      ingestRows 1 2 [3] [] [["n", "a1", " ", "x@x.com"], ["n", "a2", "viewer", "b@x.com"]] =
        ingestRows 1 2 [3] [] [["n", "a2", "viewer", "b@x.com"]] :=
  ⟨Or.inr ⟨"a1", " ", by decide, by decide, Or.inr (by decide)⟩,
    c7_malformed_row_skipped 1 2 [3] [] ["n", "a1", " ", "x@x.com"]
      [["n", "a2", "viewer", "b@x.com"]]
      (Or.inr ⟨"a1", " ", by decide, by decide, Or.inr (by decide)⟩)⟩

/-- Counterexample for C7 as stated: a non-empty row with fewer cells than
the fixed columns is not skipped; it raises an IndexError that aborts the
whole run with exit code 1, so the later well-formed row is never
processed. -/
theorem c7_short_row_counterexample :
    process_share_albums
      [⟨"a1", "Al", [⟨"editor", "a@x.com"⟩]⟩] [("c@x.com", "u3")]
      (fun _ _ => true) (fun _ _ _ => true)
      (some [["AlbumName", "AlbumId", "Role", "User 1"], ["only"],
        ["n", "a1", "viewer", "c@x.com"]]) = ⟨1, [], none⟩ := by
  decide

/-- C10: reconciliation never reads the per-album batch role recorded at
ingestion; two ingested inputs with the same per-album (email, role) sets
produce identical calls and identical statistics. -/
theorem c10_batch_role_never_read (dir : Directory) (rOk : RemoveOracle)
    (sOk : ShareOracle) (cur : String → List (String × String))
    (ad1 ad2 : AlbumData)
    (h : ad1.map (fun ent => (ent.1, ent.2.users)) =
      ad2.map (fun ent => (ent.1, ent.2.users))) :
    runReconcile dir rOk sOk cur ad1 = runReconcile dir rOk sOk cur ad2 := by
  induction ad1 generalizing ad2 with
  | nil =>
    cases ad2 with
    | nil => rfl
    | cons q t2 => simp at h
  | cons p t1 ih =>
    cases ad2 with
    | nil => simp at h
    | cons q t2 =>
      simp only [List.map_cons, List.cons.injEq, Prod.mk.injEq] at h
      obtain ⟨⟨hk, hu⟩, ht⟩ := h
      simp only [runReconcile, ih t2 ht, hk, hu]

/-- Witness for C10: two concrete ingested inputs differing only in the
stored batch role yield the same calls and statistics. -/
theorem c10_batch_role_never_read_witness :
    (([("a1", (⟨[("a@x.com", "editor")], "viewer"⟩ : BatchData))] : AlbumData).map
        (fun ent => (ent.1, ent.2.users)) =
      ([("a1", (⟨[("a@x.com", "editor")], "editor"⟩ : BatchData))] : AlbumData).map
        (fun ent => (ent.1, ent.2.users))) ∧
      runReconcile [("a@x.com", "u1")] (fun _ _ => true) (fun _ _ _ => true) (fun _ => [])
        [("a1", ⟨[("a@x.com", "editor")], "viewer"⟩)] =
      runReconcile [("a@x.com", "u1")] (fun _ _ => true) (fun _ _ _ => true) (fun _ => [])
        [("a1", ⟨[("a@x.com", "editor")], "editor"⟩)] :=
  ⟨by decide,
    c10_batch_role_never_read [("a@x.com", "u1")] (fun _ _ => true) (fun _ _ _ => true)
      (fun _ => []) [("a1", ⟨[("a@x.com", "editor")], "viewer"⟩)]
      [("a1", ⟨[("a@x.com", "editor")], "editor"⟩)] (by decide)⟩

theorem reconcileOneAlbum_calls (dir : Directory) (rOk : RemoveOracle)
    (sOk : ShareOracle) (aid : String) (current users : List (String × String)) :
    (reconcileOneAlbum dir rOk sOk aid current users).calls =
      (removalPhase dir rOk aid (toRemove current users)).calls ++
        (sharePhase dir sOk aid current users).calls := rfl

theorem reconcileOneAlbum_notFound (dir : Directory) (rOk : RemoveOracle)
    (sOk : ShareOracle) (aid : String) (current users : List (String × String)) :
    (reconcileOneAlbum dir rOk sOk aid current users).notFound =
      (sharePhase dir sOk aid current users).notFound := rfl

theorem reconcileOneAlbum_failed (dir : Directory) (rOk : RemoveOracle)
    (sOk : ShareOracle) (aid : String) (current users : List (String × String)) :
    (reconcileOneAlbum dir rOk sOk aid current users).failed =
      (sharePhase dir sOk aid current users).failed := rfl

theorem removalPhase_all_remove {dir : Directory} {rOk : RemoveOracle} {aid : String}
    {es : List String} : ∀ c ∈ (removalPhase dir rOk aid es).calls, isRemoveCall c = true := by
  intro c hc
  obtain ⟨e, uid, hEq, _, _⟩ := mem_removalPhase_calls.mp hc
  subst hEq; rfl

theorem sharePhase_all_share {dir : Directory} {sOk : ShareOracle} {aid : String}
    {cur us : List (String × String)} :
    ∀ c ∈ (sharePhase dir sOk aid cur us).calls, isShareCall c = true := by
  intro c hc
  obtain ⟨e, uid, r, hEq, _, _, _⟩ := mem_sharePhase_calls.mp hc
  subst hEq; rfl

theorem mem_removeEmails {cs : List Call} {e : String} :
    e ∈ removeEmails cs ↔ ∃ a u, Call.removeUser a e u ∈ cs := by
  simp only [removeEmails, List.mem_filterMap]
  constructor
  · rintro ⟨c, hc, hf⟩
    cases c with
    | removeUser a e' u =>
      simp only [Option.some_inj] at hf
      subst hf; exact ⟨a, u, hc⟩
    | shareUser a e' u r => simp at hf
  · rintro ⟨a, u, h⟩
    exact ⟨Call.removeUser a e u, h, rfl⟩

theorem mem_shareEmails {cs : List Call} {e : String} :
    e ∈ shareEmails cs ↔ ∃ a u r, Call.shareUser a e u r ∈ cs := by
  simp only [shareEmails, List.mem_filterMap]
  constructor
  · rintro ⟨c, hc, hf⟩
    cases c with
    | removeUser a e' u => simp at hf
    | shareUser a e' u r =>
      simp only [Option.some_inj] at hf
      subst hf; exact ⟨a, u, r, hc⟩
  · rintro ⟨a, u, r, h⟩
    exact ⟨Call.shareUser a e u r, h, rfl⟩

/-- C4: within one album's reconciliation pass, the emails receiving
removal calls and the emails receiving share/update calls are disjoint. -/
theorem c4_removal_addition_disjoint (dir : Directory) (rOk : RemoveOracle)
    (sOk : ShareOracle) (aid : String) (current users : List (String × String)) :
    List.Disjoint
      (removeEmails (reconcileOneAlbum dir rOk sOk aid current users).calls)
      (shareEmails (reconcileOneAlbum dir rOk sOk aid current users).calls) := by
  intro e h1 h2
  rw [mem_removeEmails] at h1
  rw [mem_shareEmails] at h2
  obtain ⟨a, u, h1⟩ := h1
  obtain ⟨a', u', r, h2⟩ := h2
  rw [reconcileOneAlbum_calls] at h1 h2
  have hnotin : e ∉ users.map Prod.fst := by
    rcases List.mem_append.mp h1 with h1r | h1s
    · obtain ⟨e1, u1, hEq, hMem, _⟩ := mem_removalPhase_calls.mp h1r
      simp only [Call.removeUser.injEq] at hEq
      rw [← hEq.2.1] at hMem
      exact (mem_toRemove.mp hMem).2
    · obtain ⟨_, _, _, hEq, _⟩ := mem_sharePhase_calls.mp h1s
      exact Call.noConfusion hEq
  have hin : e ∈ users.map Prod.fst := by
    rcases List.mem_append.mp h2 with h2r | h2s
    · obtain ⟨_, _, hEq, _, _⟩ := mem_removalPhase_calls.mp h2r
      exact Call.noConfusion hEq
    · obtain ⟨e1, u1, r1, hEq, hMem, _⟩ := mem_sharePhase_calls.mp h2s
      simp only [Call.shareUser.injEq] at hEq
      rw [← hEq.2.1] at hMem
      exact List.mem_map.mpr ⟨(e, r1), hMem, rfl⟩
  exact hnotin hin

/-- Witness exercising C4 on a concrete album where a removal happens. -/
theorem c4_removal_addition_disjoint_witness :
    "a@x.com" ∈ removeEmails (reconcileOneAlbum [("a@x.com", "u1"), ("b@x.com", "u2")]
        (fun _ _ => true) (fun _ _ _ => true) "a1"
        [("a@x.com", "viewer")] [("b@x.com", "viewer")]).calls ∧
      "a@x.com" ∉ shareEmails (reconcileOneAlbum [("a@x.com", "u1"), ("b@x.com", "u2")]
        (fun _ _ => true) (fun _ _ _ => true) "a1"
        [("a@x.com", "viewer")] [("b@x.com", "viewer")]).calls :=
  ⟨by decide,
    fun h =>
      c4_removal_addition_disjoint [("a@x.com", "u1"), ("b@x.com", "u2")]
        (fun _ _ => true) (fun _ _ _ => true) "a1"
        [("a@x.com", "viewer")] [("b@x.com", "viewer")] (by decide) h⟩

/-- C5: within one album, every removal call precedes every share call in
the issued sequence, and an email present in the desired set never
receives a removal call (role changes go only through the update path). -/
theorem c5_removals_before_shares (dir : Directory) (rOk : RemoveOracle)
    (sOk : ShareOracle) (aid : String) (current users : List (String × String)) :
    (∀ (i j : Nat) (ci cj : Call),
        ((reconcileOneAlbum dir rOk sOk aid current users).calls)[i]? = some ci →
        ((reconcileOneAlbum dir rOk sOk aid current users).calls)[j]? = some cj →
        isRemoveCall ci = true → isShareCall cj = true → i < j) ∧
      (∀ e, e ∈ users.map Prod.fst →
        ∀ uid, Call.removeUser aid e uid ∉
          (reconcileOneAlbum dir rOk sOk aid current users).calls) := by
  constructor
  · intro i j ci cj hi hj hci hcj
    rw [reconcileOneAlbum_calls] at hi hj
    have hi' : i < (removalPhase dir rOk aid (toRemove current users)).calls.length := by
      by_contra h
      push_neg at h
      rw [List.getElem?_append_right h] at hi
      have hmem := List.getElem?_mem hi
      have hsh := sharePhase_all_share ci hmem
      cases ci <;> simp [isRemoveCall, isShareCall] at hci hsh
    have hj' : (removalPhase dir rOk aid (toRemove current users)).calls.length ≤ j := by
      by_contra h
      push_neg at h
      rw [List.getElem?_append_left h] at hj
      have hmem := List.getElem?_mem hj
      have hrm := removalPhase_all_remove cj hmem
      cases cj <;> simp [isRemoveCall, isShareCall] at hcj hrm
    exact lt_of_lt_of_le hi' hj'
  · intro e he uid hmem
    rw [reconcileOneAlbum_calls] at hmem
    rcases List.mem_append.mp hmem with h | h
    · obtain ⟨e1, u1, hEq, hMem, _⟩ := mem_removalPhase_calls.mp h
      simp only [Call.removeUser.injEq] at hEq
      rw [← hEq.2.1] at hMem
      exact (mem_toRemove.mp hMem).2 he
    · obtain ⟨_, _, _, hEq, _⟩ := mem_sharePhase_calls.mp h
      exact Call.noConfusion hEq

/-- Witness exercising C5 on a concrete album with one removal call
followed by one share call. -/
theorem c5_removals_before_shares_witness :
    ((reconcileOneAlbum [("a@x.com", "u1"), ("b@x.com", "u2")] (fun _ _ => true)
        (fun _ _ _ => true) "a1" [("a@x.com", "viewer")]
        [("b@x.com", "viewer")]).calls)[0]? = some (Call.removeUser "a1" "a@x.com" "u1") ∧
      ((reconcileOneAlbum [("a@x.com", "u1"), ("b@x.com", "u2")] (fun _ _ => true)
        (fun _ _ _ => true) "a1" [("a@x.com", "viewer")]
        [("b@x.com", "viewer")]).calls)[1]? = some (Call.shareUser "a1" "b@x.com" "u2" "viewer") ∧
      (0 : Nat) < 1 :=
  ⟨by decide, by decide,
    (c5_removals_before_shares [("a@x.com", "u1"), ("b@x.com", "u2")] (fun _ _ => true)
      (fun _ _ _ => true) "a1" [("a@x.com", "viewer")] [("b@x.com", "viewer")]).1
      0 1 (Call.removeUser "a1" "a@x.com" "u1") (Call.shareUser "a1" "b@x.com" "u2" "viewer")
      (by decide) (by decide) (by decide) (by decide)⟩

theorem sharePhase_notFound_eq (dir : Directory) (sOk : ShareOracle) (aid : String)
    (cur : List (String × String)) (us : List (String × String)) :
    (sharePhase dir sOk aid cur us).notFound =
      (us.filter (fun p => (dlookup dir p.1).isNone)).map Prod.fst := by
  induction us with
  | nil => rfl
  | cons p t ih =>
    obtain ⟨e, r⟩ := p
    simp only [sharePhase]
    cases hd : dlookup dir e with
    | none => simp [hd, ih]
    | some uid =>
      by_cases hc : dlookup cur e = some r
      · simp [hd, hc, ih]
      · by_cases hok : sOk aid uid r <;> simp [hd, hc, hok, ih]

theorem sharePhase_cons_none {dir : Directory} {sOk : ShareOracle} {aid e r : String}
    {cur t : List (String × String)} (hd : dlookup dir e = none) :
    sharePhase dir sOk aid cur ((e, r) :: t) =
      ⟨(sharePhase dir sOk aid cur t).calls, (sharePhase dir sOk aid cur t).succ,
        (sharePhase dir sOk aid cur t).failed + 1, e :: (sharePhase dir sOk aid cur t).notFound⟩ := by
  simp [sharePhase, hd]

theorem sharePhase_cons_skip {dir : Directory} {sOk : ShareOracle} {aid e r uid : String}
    {cur t : List (String × String)} (hd : dlookup dir e = some uid)
    (hc : dlookup cur e = some r) :
    sharePhase dir sOk aid cur ((e, r) :: t) = sharePhase dir sOk aid cur t := by
  simp [sharePhase, hd, hc]

theorem sharePhase_cons_ok {dir : Directory} {sOk : ShareOracle} {aid e r uid : String}
    {cur t : List (String × String)} (hd : dlookup dir e = some uid)
    (hc : ¬dlookup cur e = some r) (hok : sOk aid uid r = true) :
    sharePhase dir sOk aid cur ((e, r) :: t) =
      ⟨Call.shareUser aid e uid r :: (sharePhase dir sOk aid cur t).calls,
        (sharePhase dir sOk aid cur t).succ + 1, (sharePhase dir sOk aid cur t).failed,
        (sharePhase dir sOk aid cur t).notFound⟩ := by
  simp [sharePhase, hd, hc, hok]

theorem sharePhase_cons_failcall {dir : Directory} {sOk : ShareOracle} {aid e r uid : String}
    {cur t : List (String × String)} (hd : dlookup dir e = some uid)
    (hc : ¬dlookup cur e = some r) (hok : sOk aid uid r = false) :
    sharePhase dir sOk aid cur ((e, r) :: t) =
      ⟨Call.shareUser aid e uid r :: (sharePhase dir sOk aid cur t).calls,
        (sharePhase dir sOk aid cur t).succ, (sharePhase dir sOk aid cur t).failed + 1,
        (sharePhase dir sOk aid cur t).notFound⟩ := by
  simp [sharePhase, hd, hc, hok]

theorem sharePhase_failed_eq (dir : Directory) (sOk : ShareOracle) (aid : String)
    (cur : List (String × String)) (us : List (String × String)) :
    (sharePhase dir sOk aid cur us).failed =
      (us.filter (fun p => (dlookup dir p.1).isNone)).length +
        ((sharePhase dir sOk aid cur us).calls.filter (shareCallFailed sOk)).length := by
  induction us with
  | nil => rfl
  | cons p t ih =>
    obtain ⟨e, r⟩ := p
    cases hd : dlookup dir e with
    | none =>
      rw [sharePhase_cons_none hd]
      simp [List.filter_cons, hd]
      omega
    | some uid =>
      by_cases hc : dlookup cur e = some r
      · rw [sharePhase_cons_skip hd hc]
        simp only [List.filter_cons, hd, Option.isNone_some]
        exact ih
      · cases hok : sOk aid uid r with
        | true =>
          rw [sharePhase_cons_ok hd hc hok]
          simp only [List.filter_cons, hd, Option.isNone_some, shareCallFailed, hok,
            Bool.not_true, if_neg (by simp : ¬(false = true))]
          exact ih
        | false =>
          rw [sharePhase_cons_failcall hd hc hok]
          simp [List.filter_cons, hd, shareCallFailed, hok]
          omega

/-- C6: a desired (email, role) pair whose email is not in the directory
gets no API call, is recorded in the unresolved set, and the failed-shares
count equals the number of unresolved tuples plus the number of failed
share calls. -/
theorem c6_unresolved_email (dir : Directory) (rOk : RemoveOracle) (sOk : ShareOracle)
    (aid : String) (current users : List (String × String)) (e r : String)
    (h1 : (e, r) ∈ users) (h2 : dlookup dir e = none) :
    e ∈ (reconcileOneAlbum dir rOk sOk aid current users).notFound ∧
      (∀ c ∈ (reconcileOneAlbum dir rOk sOk aid current users).calls, callEmail c ≠ e) ∧
      (reconcileOneAlbum dir rOk sOk aid current users).failed =
        (users.filter (fun p => (dlookup dir p.1).isNone)).length +
          ((reconcileOneAlbum dir rOk sOk aid current users).calls.filter
            (shareCallFailed sOk)).length := by
  have hin : e ∈ users.map Prod.fst := List.mem_map.mpr ⟨(e, r), h1, rfl⟩
  refine ⟨?_, ?_, ?_⟩
  · rw [reconcileOneAlbum_notFound, sharePhase_notFound_eq]
    exact List.mem_map.mpr ⟨(e, r), List.mem_filter.mpr ⟨h1, by rw [h2]; rfl⟩, rfl⟩
  · intro c hc
    rw [reconcileOneAlbum_calls] at hc
    rcases List.mem_append.mp hc with h | h
    · obtain ⟨e1, u1, hEq, hMem, _⟩ := mem_removalPhase_calls.mp h
      subst hEq
      simp only [callEmail]
      intro hcon
      subst hcon
      exact (mem_toRemove.mp hMem).2 hin
    · obtain ⟨e1, u1, r1, hEq, _, hLook, _⟩ := mem_sharePhase_calls.mp h
      subst hEq
      simp only [callEmail]
      intro hcon
      subst hcon
      rw [h2] at hLook
      exact Option.noConfusion hLook
  · rw [reconcileOneAlbum_failed, reconcileOneAlbum_calls, sharePhase_failed_eq]
    have hrc : ((removalPhase dir rOk aid (toRemove current users)).calls.filter
        (shareCallFailed sOk)) = [] := by
      rw [List.filter_eq_nil_iff]
      intro c hc
      obtain ⟨e1, u1, hEq, _, _⟩ := mem_removalPhase_calls.mp hc
      subst hEq
      simp [shareCallFailed]
    rw [List.filter_append, hrc, List.nil_append]

/-- Witness exercising C6 on a concrete unresolved email. -/
theorem c6_unresolved_email_witness :
    (("z@x.com", "viewer") ∈ [("z@x.com", "viewer")] ∧
        dlookup [("a@x.com", "u1")] "z@x.com" = none) ∧
      "z@x.com" ∈ (reconcileOneAlbum [("a@x.com", "u1")] (fun _ _ => true)
        (fun _ _ _ => true) "a1" [] [("z@x.com", "viewer")]).notFound :=
  ⟨⟨by decide, by decide⟩,
    (c6_unresolved_email [("a@x.com", "u1")] (fun _ _ => true) (fun _ _ _ => true)
      "a1" [] [("z@x.com", "viewer")] "z@x.com" "viewer" (by decide) (by decide)).1⟩

/-- C9: role comparison is case-sensitive with asymmetric normalization: a
resolvable desired pair whose current server role differs from the desired
role, in particular only by letter case, always gets a share/update call. -/
theorem c9_case_mismatch_calls (dir : Directory) (rOk : RemoveOracle) (sOk : ShareOracle)
    (aid : String) (current users : List (String × String)) (e r uid cr : String)
    (h1 : (e, r) ∈ users) (h2 : dlookup dir e = some uid)
    (h3 : dlookup current e = some cr) (h4 : cr ≠ r) (h5 : strLower cr = strLower r) :
    Call.shareUser aid e uid r ∈ (reconcileOneAlbum dir rOk sOk aid current users).calls := by
  have hne : dlookup current e ≠ some r := by
    rw [h3]
    intro hcon
    exact h4 (Option.some_inj.mp hcon)
  rw [reconcileOneAlbum_calls]
  exact List.mem_append.mpr
    (Or.inr (mem_sharePhase_calls.mpr ⟨e, uid, r, rfl, h1, h2, hne⟩))

/-- Witness exercising C9: the server reports role Viewer, the desired
role is viewer, and an update call is issued. -/
theorem c9_case_mismatch_calls_witness :
    (("a@x.com", "viewer") ∈ [("a@x.com", "viewer")] ∧
        dlookup [("a@x.com", "u1")] "a@x.com" = some "u1" ∧
        dlookup [("a@x.com", "Viewer")] "a@x.com" = some "Viewer" ∧
        "Viewer" ≠ "viewer" ∧ strLower "Viewer" = strLower "viewer") ∧
      Call.shareUser "a1" "a@x.com" "u1" "viewer" ∈
        (reconcileOneAlbum [("a@x.com", "u1")] (fun _ _ => true) (fun _ _ _ => true)
          "a1" [("a@x.com", "Viewer")] [("a@x.com", "viewer")]).calls :=
  ⟨⟨by decide, by decide, by decide, by decide, by decide⟩,
    c9_case_mismatch_calls [("a@x.com", "u1")] (fun _ _ => true) (fun _ _ _ => true)
      "a1" [("a@x.com", "Viewer")] [("a@x.com", "viewer")] "a@x.com" "viewer" "u1" "Viewer"
      (by decide) (by decide) (by decide) (by decide) (by decide)⟩

theorem foldl_max_ge_init (ps : List ProcessedRow) (m : Nat) :
    m ≤ ps.foldl (fun m p => max m p.users.length) m := by
  induction ps generalizing m with
  | nil => exact Nat.le_refl m
  | cons q t ih =>
    exact Nat.le_trans (Nat.le_max_left m q.users.length) (ih (max m q.users.length))

theorem le_max_users {ps : List ProcessedRow} {p : ProcessedRow} (hp : p ∈ ps) :
    p.users.length ≤ max_users ps := by
  rw [max_users]
  generalize 0 = m
  induction ps generalizing m with
  | nil => exact absurd hp (List.not_mem_nil p)
  | cons q t ih =>
    simp only [List.foldl_cons]
    rcases List.mem_cons.mp hp with h | h
    · subst h
      exact Nat.le_trans (Nat.le_max_right m p.users.length)
        (foldl_max_ge_init t (max m p.users.length))
    · exact ih h (max m q.users.length)

theorem foldl_max_cases (ps : List ProcessedRow) (m : Nat) :
    ps.foldl (fun m p => max m p.users.length) m = m ∨
      ∃ p ∈ ps, ps.foldl (fun m p => max m p.users.length) m = p.users.length := by
  induction ps generalizing m with
  | nil => exact Or.inl rfl
  | cons q t ih =>
    simp only [List.foldl_cons]
    rcases ih (max m q.users.length) with h | ⟨p, hp, h⟩
    · rcases Nat.le_total q.users.length m with hle | hle
      · exact Or.inl (h.trans (Nat.max_eq_left hle))
      · exact Or.inr ⟨q, List.mem_cons_self _ _, h.trans (Nat.max_eq_right hle)⟩
    · exact Or.inr ⟨p, List.mem_cons_of_mem _ hp, h⟩

theorem max_users_attained {ps : List ProcessedRow} (h : ps ≠ []) :
    ∃ p ∈ ps, p.users.length = max_users ps := by
  rcases foldl_max_cases ps 0 with h0 | ⟨p, hp, hEq⟩
  · cases ps with
    | nil => exact absurd rfl h
    | cons q t =>
      have h1 : q.users.length ≤ max_users (q :: t) := le_max_users (List.mem_cons_self _ _)
      have h2 : max_users (q :: t) = 0 := h0
      exact ⟨q, List.mem_cons_self _ _, by omega⟩
  · exact ⟨p, hp, hEq.symm⟩

theorem addRoleUser_ne_nil (acc : List (String × List String)) (u : AlbumUserInfo) :
    addRoleUser acc u ≠ [] := by
  rw [addRoleUser]
  by_cases hmem : u.role ∈ acc.map Prod.fst
  · rw [if_pos hmem]
    obtain ⟨p, hp, _⟩ := List.mem_map.mp hmem
    cases acc with
    | nil => exact absurd hp (List.not_mem_nil p)
    | cons q t =>
      by_cases he : u.email = "" <;> simp [he]
  · rw [if_neg hmem]
    by_cases he : u.email = "" <;> simp [he]

theorem foldl_addRoleUser_ne_nil (l : List AlbumUserInfo)
    (acc : List (String × List String)) (h : acc ≠ [] ∨ l ≠ []) :
    l.foldl addRoleUser acc ≠ [] := by
  induction l generalizing acc with
  | nil =>
    rcases h with h | h
    · exact h
    · exact absurd rfl h
  | cons u t ih =>
    exact ih (addRoleUser acc u) (Or.inl (addRoleUser_ne_nil acc u))

theorem processedOf_ne_nil (a : Album) : processedOf a ≠ [] := by
  rw [processedOf]
  by_cases h : a.albumUsers = []
  · simp [h]
  · rw [if_neg h]
    intro hcon
    exact foldl_addRoleUser_ne_nil a.albumUsers [] (Or.inr h)
      (by simpa [role_users_of] using List.map_eq_nil_iff.mp (by exact hcon))

theorem map_fst_addRoleUser (acc : List (String × List String)) (u : AlbumUserInfo) :
    (addRoleUser acc u).map Prod.fst = setIns (acc.map Prod.fst) u.role := by
  rw [addRoleUser, setIns]
  by_cases hmem : u.role ∈ acc.map Prod.fst
  · rw [if_pos hmem, if_pos hmem]
    by_cases he : u.email = ""
    · rw [if_pos he]
    · rw [if_neg he, List.map_map]
      congr 1
      funext p
      by_cases hr : p.1 = u.role <;> simp [hr]
  · rw [if_neg hmem, if_neg hmem]
    by_cases he : u.email = ""
    · rw [if_pos he, List.map_append]
      simp
    · rw [if_neg he, List.map_map]
      have : (Prod.fst ∘ fun p : String × List String =>
          if p.1 = u.role then (p.1, p.2 ++ [u.email]) else p) = Prod.fst := by
        funext p
        by_cases hr : p.1 = u.role <;> simp [hr]
      rw [this, List.map_append]
      simp

theorem map_fst_role_users (l : List AlbumUserInfo) :
    (role_users_of l).map Prod.fst = dedupF (l.map (fun u => u.role)) := by
  rw [role_users_of, dedupF, List.foldl_map]
  have : ∀ (acc : List (String × List String)),
      (l.foldl addRoleUser acc).map Prod.fst =
        l.foldl (fun ks u => setIns ks u.role) (acc.map Prod.fst) := by
    induction l with
    | nil => intro acc; rfl
    | cons u t ih =>
      intro acc
      simp only [List.foldl_cons]
      rw [ih (addRoleUser acc u), map_fst_addRoleUser]
  simpa using this []

theorem exportHeader_length (m : Nat) : (exportHeader m).length = 3 + m := by
  simp [exportHeader]
  omega

theorem exportRow_length {m : Nat} {p : ProcessedRow} (h : p.users.length ≤ m) :
    (exportRow m p).length = 3 + m := by
  simp only [exportRow, List.length_append, List.length_cons, List.length_nil,
    List.length_replicate]
  omega

theorem processed_albums_ne_nil {albums : List Album} (h : albums ≠ []) :
    processed_albums albums ≠ [] := by
  cases albums with
  | nil => exact absurd rfl h
  | cons a t =>
    simp only [processed_albums, List.map_cons, List.flatten_cons]
    intro hcon
    exact processedOf_ne_nil a (List.append_eq_nil.mp hcon).1

/-- C8: for a non-empty album list the exporter emits a rectangular table:
every row (header included) has width 3 plus the global maximum per-row
user count, that maximum is attained by some row, an album with no shares
contributes exactly one row with empty role and only padding cells, and a
shared album contributes one row per distinct role of its share entries. -/
theorem c8_export_rectangular (albums : List Album) (h : albums ≠ []) :
    ∃ tbl, process_albums_to_csv albums = some tbl ∧
      (∀ row ∈ tbl, row.length = 3 + max_users (processed_albums albums)) ∧
      (∃ p ∈ processed_albums albums,
        p.users.length = max_users (processed_albums albums)) ∧
      (∀ a ∈ albums, a.albumUsers = [] →
        (processedOf a).map (exportRow (max_users (processed_albums albums))) =
          [[a.albumName, a.id, ""] ++
            List.replicate (max_users (processed_albums albums)) ""]) ∧
      (∀ a ∈ albums, a.albumUsers ≠ [] →
        (processedOf a).map (fun p => p.role) =
          dedupF (a.albumUsers.map (fun u => u.role))) := by
  refine ⟨exportHeader (max_users (processed_albums albums)) ::
      (processed_albums albums).map (exportRow (max_users (processed_albums albums))),
    ?_, ?_, ?_, ?_, ?_⟩
  · simp only [process_albums_to_csv, if_neg h]
  · intro row hrow
    rcases List.mem_cons.mp hrow with hrow | hrow
    · subst hrow
      exact exportHeader_length _
    · obtain ⟨p, hp, hEq⟩ := List.mem_map.mp hrow
      subst hEq
      exact exportRow_length (le_max_users hp)
  · exact max_users_attained (processed_albums_ne_nil h)
  · intro a _ hempty
    rw [processedOf, if_pos hempty]
    simp [exportRow]
  · intro a _ hne
    rw [processedOf, if_neg hne, List.map_map]
    have : ((fun p : ProcessedRow => p.role) ∘ fun p : String × List String =>
        (⟨a.albumName, a.id, p.1, p.2⟩ : ProcessedRow)) = Prod.fst := rfl
    rw [this, map_fst_role_users]

/-- Witness exercising C8 on a concrete two-album server (three shares
across two roles plus an unshared album). -/
theorem c8_export_rectangular_witness :
    (([⟨"a1", "Al", [⟨"editor", "a@x.com"⟩, ⟨"viewer", "b@x.com"⟩, ⟨"editor", "c@x.com"⟩]⟩,
        ⟨"a2", "Em", []⟩] : List Album) ≠ []) ∧
      ∃ tbl, process_albums_to_csv
        [⟨"a1", "Al", [⟨"editor", "a@x.com"⟩, ⟨"viewer", "b@x.com"⟩, ⟨"editor", "c@x.com"⟩]⟩,
          ⟨"a2", "Em", []⟩] = some tbl ∧
        ∀ row ∈ tbl, row.length = 3 + max_users (processed_albums
          [⟨"a1", "Al", [⟨"editor", "a@x.com"⟩, ⟨"viewer", "b@x.com"⟩, ⟨"editor", "c@x.com"⟩]⟩,
            ⟨"a2", "Em", []⟩]) :=
  ⟨by decide,
    match c8_export_rectangular
        [⟨"a1", "Al", [⟨"editor", "a@x.com"⟩, ⟨"viewer", "b@x.com"⟩, ⟨"editor", "c@x.com"⟩]⟩,
          ⟨"a2", "Em", []⟩] (by decide) with
    | ⟨tbl, h1, h2, _, _, _⟩ => ⟨tbl, h1, h2⟩⟩

theorem dlookup_cons (p : String × String) (t : List (String × String)) (k : String) :
    dlookup (p :: t) k =
      match dlookup t k with
      | some v => some v
      | none => if p.1 = k then some p.2 else none := rfl

theorem dlookup_eq_none_iff {l : List (String × String)} {k : String} :
    dlookup l k = none ↔ k ∉ l.map Prod.fst := by
  induction l with
  | nil => simp [dlookup]
  | cons p t ih =>
    rw [dlookup_cons]
    simp only [List.map_cons, List.mem_cons]
    cases hdt : dlookup t k with
    | some v =>
      have hk : k ∈ t.map Prod.fst := by
        by_contra hcon
        rw [ih.mpr hcon] at hdt
        exact Option.noConfusion hdt
      simp [hk]
    | none =>
      have hk : k ∉ t.map Prod.fst := ih.mp hdt
      by_cases hp : p.1 = k
      · subst hp
        simp [hk]
      · simp [hp, hk, Ne.symm hp]

theorem dlookup_delKey (l : List (String × String)) (e x : String) :
    dlookup (delKey l e) x = if x = e then none else dlookup l x := by
  induction l with
  | nil => by_cases hx : x = e <;> simp [delKey, dlookup, hx]
  | cons p t ih =>
    by_cases hp : p.1 = e
    · simp only [delKey, if_pos hp]
      rw [ih]
      by_cases hx : x = e
      · simp [hx]
      · rw [if_neg hx, if_neg hx, dlookup_cons]
        cases hdt : dlookup t x with
        | some v => rfl
        | none => exact (if_neg (fun hcon => hx ((hcon.symm).trans hp))).symm
    · simp only [delKey, if_neg hp]
      rw [dlookup_cons, ih]
      by_cases hx : x = e
      · subst hx
        rw [if_pos rfl, if_pos rfl]
        rw [if_neg hp]
      · rw [if_neg hx, if_neg hx, dlookup_cons]

theorem dlookup_append_single (l : List (String × String)) (e r x : String) :
    dlookup (l ++ [(e, r)]) x = if x = e then some r else dlookup l x := by
  induction l with
  | nil =>
    by_cases hx : x = e
    · subst hx
      simp [dlookup]
    · have he : ¬(e = x) := fun h => hx h.symm
      simp [dlookup, hx, he]
  | cons p t ih =>
    rw [List.cons_append, dlookup_cons, ih, dlookup_cons]
    by_cases hx : x = e
    · simp [hx]
    · rw [if_neg hx, if_neg hx]

theorem applyCalls_snoc (l : List (String × String)) (cs : List Call) (c : Call) :
    applyCalls l (cs ++ [c]) = applyCall (applyCalls l cs) c := by
  simp [applyCalls, List.foldl_append]

theorem lastCallFor_snoc (x : String) (cs : List Call) (c : Call) :
    lastCallFor x (cs ++ [c]) = if callEmail c = x then some c else lastCallFor x cs := by
  simp [lastCallFor, List.foldl_append]

theorem dlookup_applyCalls (l : List (String × String)) (cs : List Call) (x : String) :
    dlookup (applyCalls l cs) x =
      match lastCallFor x cs with
      | some (Call.shareUser _ _ _ r) => some r
      | some (Call.removeUser _ _ _) => none
      | none => dlookup l x := by
  induction cs using List.reverseRecOn with
  | nil => rfl
  | append_singleton cs c ih =>
    rw [applyCalls_snoc, lastCallFor_snoc]
    cases c with
    | removeUser a e u =>
      simp only [applyCall, callEmail]
      by_cases hx : e = x
      · rw [if_pos hx, dlookup_delKey, if_pos hx.symm]
      · rw [if_neg hx, dlookup_delKey, if_neg (fun h => hx h.symm), ih]
    | shareUser a e u r =>
      simp only [applyCall, callEmail]
      by_cases hx : e = x
      · rw [if_pos hx, dlookup_append_single, if_pos hx.symm]
      · rw [if_neg hx, dlookup_append_single, if_neg (fun h => hx h.symm),
          dlookup_delKey, if_neg (fun h => hx h.symm), ih]

theorem lastCallFor_mem {x : String} {cs : List Call} {c : Call}
    (h : lastCallFor x cs = some c) : c ∈ cs ∧ callEmail c = x := by
  induction cs using List.reverseRecOn with
  | nil => exact Option.noConfusion h
  | append_singleton cs c' ih =>
    rw [lastCallFor_snoc] at h
    by_cases hc : callEmail c' = x
    · rw [if_pos hc] at h
      obtain rfl := Option.some_inj.mp h
      exact ⟨List.mem_append.mpr (Or.inr (List.mem_singleton.mpr rfl)), hc⟩
    · rw [if_neg hc] at h
      obtain ⟨h1, h2⟩ := ih h
      exact ⟨List.mem_append.mpr (Or.inl h1), h2⟩

theorem lastCallFor_eq_none_iff {x : String} {cs : List Call} :
    lastCallFor x cs = none ↔ ∀ c ∈ cs, callEmail c ≠ x := by
  induction cs using List.reverseRecOn with
  | nil => simp [lastCallFor]
  | append_singleton cs c' ih =>
    rw [lastCallFor_snoc]
    by_cases hc : callEmail c' = x
    · rw [if_pos hc]
      simp only [iff_false, Option.some_ne_none, false_iff]
      intro hall
      exact hall c' (List.mem_append.mpr (Or.inr (List.mem_singleton.mpr rfl))) hc
    · rw [if_neg hc, ih]
      constructor
      · intro hall c hmem
        rcases List.mem_append.mp hmem with h | h
        · exact hall c h
        · rw [List.mem_singleton.mp h]
          exact hc
      · intro hall c hmem
        exact hall c (List.mem_append.mpr (Or.inl hmem))

theorem lastCallFor_unique {x : String} {cs : List Call} {c0 : Call}
    (hmem : c0 ∈ cs) (hx : callEmail c0 = x)
    (huniq : ∀ c ∈ cs, callEmail c = x → c = c0) :
    lastCallFor x cs = some c0 := by
  induction cs using List.reverseRecOn with
  | nil => exact absurd hmem (List.not_mem_nil c0)
  | append_singleton cs c' ih =>
    rw [lastCallFor_snoc]
    by_cases hc : callEmail c' = x
    · rw [if_pos hc, huniq c' (List.mem_append.mpr (Or.inr (List.mem_singleton.mpr rfl))) hc]
    · rw [if_neg hc]
      have hmem' : c0 ∈ cs := by
        rcases List.mem_append.mp hmem with h | h
        · exact h
        · rw [List.mem_singleton.mp h] at hx
          exact absurd hx hc
      exact ih hmem' (fun c h hcx => huniq c (List.mem_append.mpr (Or.inl h)) hcx)

theorem removalPhase_calls_nil {dir : Directory} {rOk : RemoveOracle} {aid : String}
    {es : List String} (h : ∀ e ∈ es, dlookup dir e = none) :
    (removalPhase dir rOk aid es).calls = [] := by
  rw [removalPhase_calls_eq, List.filterMap_eq_nil_iff]
  intro e he
  rw [removeDecision, h e he]
  rfl

theorem sharePhase_calls_nil {dir : Directory} {sOk : ShareOracle} {aid : String}
    {cur us : List (String × String)}
    (h : ∀ p ∈ us, dlookup dir p.1 = none ∨ dlookup cur p.1 = some p.2) :
    (sharePhase dir sOk aid cur us).calls = [] := by
  rw [sharePhase_calls_eq, List.filterMap_eq_nil_iff]
  intro p hp
  rcases h p hp with h1 | h1
  · rw [shareDecision, h1]
  · rw [shareDecision]
    cases dlookup dir p.1 with
    | none => rfl
    | some uid => simp [h1]

/-- Any call issued for one album whose email is in the desired set and
resolves to the given id is exactly the share call with that email's
unique desired role. -/
theorem reconcile_call_unique {dir : Directory} {aid e uid r : String}
    {cur users : List (String × String)}
    (hfun : ∀ e' r1 r2, (e', r1) ∈ users → (e', r2) ∈ users → r1 = r2)
    (her : (e, r) ∈ users) (hd : dlookup dir e = some uid) :
    ∀ c ∈ (reconcileOneAlbum dir (fun _ _ => true) (fun _ _ _ => true) aid cur users).calls,
      callEmail c = e → c = Call.shareUser aid e uid r := by
  intro c hc hce
  rw [reconcileOneAlbum_calls] at hc
  rcases List.mem_append.mp hc with h | h
  · obtain ⟨e1, u1, hEq, hMem, _⟩ := mem_removalPhase_calls.mp h
    subst hEq
    simp only [callEmail] at hce
    rw [hce] at hMem
    exact absurd (List.mem_map.mpr ⟨(e, r), her, rfl⟩) (mem_toRemove.mp hMem).2
  · obtain ⟨e1, u1, r1, hEq, hMem, hLook, _⟩ := mem_sharePhase_calls.mp h
    subst hEq
    simp only [callEmail] at hce
    rw [hce] at hMem hLook
    have hr : r1 = r := hfun e r1 r hMem her
    rw [hd] at hLook
    have hu : u1 = uid := (Option.some_inj.mp hLook).symm
    rw [hce, hr, hu]

/-- Idempotence of one album's reconciliation when every desired email has
a unique role: after applying all (successful) calls of a first run, a
second run over the same desired pairs issues no calls. -/
theorem reconcileOneAlbum_idempotent (dir : Directory) (aid : String)
    (cur users : List (String × String))
    (hfun : ∀ e r1 r2, (e, r1) ∈ users → (e, r2) ∈ users → r1 = r2) :
    (reconcileOneAlbum dir (fun _ _ => true) (fun _ _ _ => true) aid
      (applyCalls cur
        (reconcileOneAlbum dir (fun _ _ => true) (fun _ _ _ => true) aid cur users).calls)
      users).calls = [] := by
  set calls1 := (reconcileOneAlbum dir (fun _ _ => true) (fun _ _ _ => true) aid cur users).calls with hcalls1
  set post := applyCalls cur calls1 with hpost
  rw [reconcileOneAlbum_calls]
  have hrm : (removalPhase dir (fun _ _ => true) aid (toRemove post users)).calls = [] := by
    apply removalPhase_calls_nil
    intro e he
    obtain ⟨hkey, hnotdes⟩ := mem_toRemove.mp he
    have hne : dlookup post e ≠ none := fun hcon => (dlookup_eq_none_iff.mp hcon) hkey
    rw [hpost, dlookup_applyCalls] at hne
    cases hlast : lastCallFor e calls1 with
    | some c =>
      obtain ⟨hcmem, hcemail⟩ := lastCallFor_mem hlast
      cases c with
      | removeUser a1 e1 u1 =>
        rw [hlast] at hne
        exact absurd rfl hne
      | shareUser a1 e1 u1 r1 =>
        rw [hcalls1, reconcileOneAlbum_calls] at hcmem
        rcases List.mem_append.mp hcmem with h | h
        · obtain ⟨_, _, hEq, _, _⟩ := mem_removalPhase_calls.mp h
          exact Call.noConfusion hEq
        · obtain ⟨e2, u2, r2, hEq, hMem, _, _⟩ := mem_sharePhase_calls.mp h
          simp only [Call.shareUser.injEq] at hEq
          simp only [callEmail] at hcemail
          rw [hEq.2.1] at hcemail
          rw [hcemail] at hMem
          exact absurd (List.mem_map.mpr ⟨(e, r2), hMem, rfl⟩) hnotdes
    | none =>
      rw [hlast] at hne
      by_contra hdir
      have hsome : ∃ uid, dlookup dir e = some uid := by
        cases hd : dlookup dir e with
        | none => exact absurd hd hdir
        | some uid => exact ⟨uid, rfl⟩
      obtain ⟨uid, hd⟩ := hsome
      have hcur : e ∈ cur.map Prod.fst := by
        by_contra hcon
        exact hne (dlookup_eq_none_iff.mpr hcon)
      have hrem : Call.removeUser aid e uid ∈ calls1 := by
        rw [hcalls1, reconcileOneAlbum_calls]
        exact List.mem_append.mpr (Or.inl (mem_removalPhase_calls.mpr
          ⟨e, uid, rfl, mem_toRemove.mpr ⟨hcur, hnotdes⟩, hd⟩))
      exact (lastCallFor_eq_none_iff.mp hlast) _ hrem rfl
  have hsh : (sharePhase dir (fun _ _ _ => true) aid post users).calls = [] := by
    apply sharePhase_calls_nil
    rintro ⟨e, r⟩ hp
    cases hd : dlookup dir e with
    | none => exact Or.inl rfl
    | some uid =>
      refine Or.inr ?_
      have huniq := @reconcile_call_unique dir aid e uid r cur users hfun hp hd
      rw [hpost, dlookup_applyCalls]
      by_cases hc : dlookup cur e = some r
      · have hnone : lastCallFor e calls1 = none := by
          rw [lastCallFor_eq_none_iff]
          intro c hcmem hce
          have := huniq c hcmem hce
          subst this
          rw [hcalls1, reconcileOneAlbum_calls] at hcmem
          rcases List.mem_append.mp hcmem with h | h
          · obtain ⟨_, _, hEq, _, _⟩ := mem_removalPhase_calls.mp h
            exact Call.noConfusion hEq
          · obtain ⟨e2, u2, r2, hEq, _, _, hDiff⟩ := mem_sharePhase_calls.mp h
            simp only [Call.shareUser.injEq] at hEq
            rw [← hEq.2.1, ← hEq.2.2.2] at hDiff
            exact hDiff hc
        rw [hnone]
        exact hc
      · have hcall : Call.shareUser aid e uid r ∈ calls1 := by
          rw [hcalls1, reconcileOneAlbum_calls]
          exact List.mem_append.mpr (Or.inr (mem_sharePhase_calls.mpr
            ⟨e, uid, r, rfl, hp, hd, hc⟩))
        have hlast : lastCallFor e calls1 = some (Call.shareUser aid e uid r) :=
          lastCallFor_unique hcall rfl
            (fun c hcm hce => huniq c hcm hce)
        rw [hlast]
  rw [hrm, hsh]
  rfl

theorem find?_eq_of_nodup {ad : AlbumData} {ent : String × BatchData}
    (hmem : ent ∈ ad) (hnodup : (ad.map Prod.fst).Nodup) :
    ad.find? (fun x => decide (x.1 = ent.1)) = some ent := by
  induction ad with
  | nil => exact absurd hmem (List.not_mem_nil ent)
  | cons q t ih =>
    rcases List.mem_cons.mp hmem with h | h
    · subst h
      rw [List.find?_cons_of_pos _ (by simp)]
    · have hq : q.1 ≠ ent.1 := by
        intro hcon
        have : ent.1 ∈ t.map Prod.fst := List.mem_map.mpr ⟨ent, h, rfl⟩
        rw [← hcon] at this
        exact (List.nodup_cons.mp (by simpa using hnodup)).1 this
      rw [List.find?_cons_of_neg _ (by simpa using hq)]
      exact ih h (List.nodup_cons.mp (by simpa using hnodup)).2

theorem runReconcile_calls_nil_of (dir : Directory)
    (cur f : String → List (String × String)) (ad : AlbumData)
    (hf : ∀ ent ∈ ad, f ent.1 = applyCalls (cur ent.1)
      (reconcileOneAlbum dir (fun _ _ => true) (fun _ _ _ => true)
        ent.1 (cur ent.1) ent.2.users).calls)
    (hfun : ∀ ent ∈ ad, ∀ e r1 r2,
      (e, r1) ∈ ent.2.users → (e, r2) ∈ ent.2.users → r1 = r2) :
    (runReconcile dir (fun _ _ => true) (fun _ _ _ => true) f ad).1 = [] := by
  induction ad with
  | nil => rfl
  | cons ent t ih =>
    obtain ⟨k, d⟩ := ent
    simp only [runReconcile]
    rw [hf (k, d) (List.mem_cons_self _ _)]
    rw [reconcileOneAlbum_idempotent dir k (cur k) d.users
      (hfun (k, d) (List.mem_cons_self _ _))]
    rw [List.nil_append]
    exact ih (fun ent h => hf ent (List.mem_cons_of_mem _ h))
      (fun ent h => hfun ent (List.mem_cons_of_mem _ h))

/-- C3 (amended): reconciliation is idempotent provided each album's
desired set gives each email a unique role: if every mutation call of a
first run succeeds, a second run with the same desired state against the
resulting per-album server state issues zero calls. -/
theorem c3_reconcile_idempotent (dir : Directory)
    (cur : String → List (String × String)) (ad : AlbumData)
    (hnodup : (ad.map Prod.fst).Nodup)
    (hfun : ∀ ent ∈ ad, ∀ e r1 r2,
      (e, r1) ∈ ent.2.users → (e, r2) ∈ ent.2.users → r1 = r2) :
    (runReconcile dir (fun _ _ => true) (fun _ _ _ => true)
      (postAlbums dir cur ad) ad).1 = [] := by
  apply runReconcile_calls_nil_of dir cur (postAlbums dir cur ad) ad ?_ hfun
  intro ent hmem
  rw [postAlbums, find?_eq_of_nodup hmem hnodup]

/-- Witness exercising C3 on a concrete album whose first run removes one
user and shares with another. -/
theorem c3_reconcile_idempotent_witness :
    (([("a1", (⟨[("b@x.com", "viewer")], "viewer"⟩ : BatchData))] : AlbumData).map
        Prod.fst).Nodup ∧
      (runReconcile [("a@x.com", "u1"), ("b@x.com", "u2")] (fun _ _ => true)
        (fun _ _ _ => true)
        (postAlbums [("a@x.com", "u1"), ("b@x.com", "u2")]
          (fun _ => [("a@x.com", "viewer")])
          [("a1", ⟨[("b@x.com", "viewer")], "viewer"⟩)])
        [("a1", ⟨[("b@x.com", "viewer")], "viewer"⟩)]).1 = [] :=
  ⟨by decide,
    c3_reconcile_idempotent [("a@x.com", "u1"), ("b@x.com", "u2")]
      (fun _ => [("a@x.com", "viewer")]) [("a1", ⟨[("b@x.com", "viewer")], "viewer"⟩)]
      (by decide)
      (by
        intro ent hment e r1 r2 h1 h2
        rw [List.mem_singleton] at hment
        subst hment
        simp only [List.mem_singleton, Prod.mk.injEq] at h1 h2
        rw [h1.2, h2.2])⟩

/-- Counterexample for C3 as stated: with an ambiguous desired set giving
one email two roles, the second run against the post-run state still
issues a share call. -/
theorem c3_duplicate_role_counterexample :
    (runReconcile [("a@x.com", "u1")] (fun _ _ => true) (fun _ _ _ => true)
      (postAlbums [("a@x.com", "u1")] (fun _ => [])
        [("a1", ⟨[("a@x.com", "viewer"), ("a@x.com", "editor")], "viewer"⟩)])
      [("a1", ⟨[("a@x.com", "viewer"), ("a@x.com", "editor")], "viewer"⟩)]).1 ≠ [] := by
  decide

theorem strLower_eq_empty_iff (s : String) : strLower s = "" ↔ s = "" := by
  constructor
  · intro h
    have hd : s.data.map Char.toLower = [] := congrArg String.data h
    have h2 : s.data = [] := List.map_eq_nil_iff.mp hd
    cases s
    simp at h2
    rw [h2]
  · intro h
    rw [h]
    rfl

theorem mem_setIns {α : Type} [DecidableEq α] {l : List α} {x y : α} :
    x ∈ setIns l y ↔ x ∈ l ∨ x = y := by
  rw [setIns]
  by_cases h : y ∈ l
  · rw [if_pos h]
    constructor
    · exact Or.inl
    · rintro (hx | hx)
      · exact hx
      · rw [hx]; exact h
  · rw [if_neg h]
    simp

theorem mem_foldl_setIns {α : Type} [DecidableEq α] {ps : List α} {l : List α} {x : α} :
    x ∈ ps.foldl setIns l ↔ x ∈ l ∨ x ∈ ps := by
  induction ps generalizing l with
  | nil => simp
  | cons q t ih =>
    simp only [List.foldl_cons, ih, mem_setIns, List.mem_cons]
    tauto

theorem mem_dedupF {l : List String} {x : String} : x ∈ dedupF l ↔ x ∈ l := by
  rw [dedupF, mem_foldl_setIns]
  simp

theorem dlookup_mem {l : List (String × String)} {k v : String}
    (h : dlookup l k = some v) : (k, v) ∈ l := by
  induction l with
  | nil => exact Option.noConfusion h
  | cons p t ih =>
    rw [dlookup_cons] at h
    cases hdt : dlookup t k with
    | some w =>
      rw [hdt] at h
      exact List.mem_cons_of_mem _ (ih (hdt.trans (congrArg some (Option.some_inj.mp h))))
    | none =>
      rw [hdt] at h
      by_cases hp : p.1 = k
      · rw [if_pos hp] at h
        have : p = (k, v) := by
          obtain ⟨p1, p2⟩ := p
          simp only at hp
          simp only [Option.some_inj] at h
          rw [Prod.mk.injEq]
          exact ⟨hp, h⟩
        rw [← this]
        exact List.mem_cons_self _ _
      · rw [if_neg hp] at h
        exact Option.noConfusion h

theorem dlookup_of_unique {l : List (String × String)} {e r : String}
    (hmem : (e, r) ∈ l) (huniq : ∀ p ∈ l, p.1 = e → p.2 = r) :
    dlookup l e = some r := by
  induction l with
  | nil => exact absurd hmem (List.not_mem_nil _)
  | cons p t ih =>
    rw [dlookup_cons]
    cases hdt : dlookup t e with
    | some v =>
      have hv : v = r := huniq (e, v) (List.mem_cons_of_mem _ (dlookup_mem hdt)) rfl
      rw [hv]
    | none =>
      rcases List.mem_cons.mp hmem with h | h
      · rw [← h]
        simp
      · have : e ∈ t.map Prod.fst := List.mem_map.mpr ⟨(e, r), h, rfl⟩
        exact absurd (dlookup_eq_none_iff.mp hdt) (fun hcon => hcon this)

theorem mem_currentEntries {a : Album} {pr : String × String} :
    pr ∈ currentEntries a ↔ ∃ u ∈ a.albumUsers,
      strLower u.email ≠ "" ∧ u.role ≠ "" ∧ pr = (strLower u.email, u.role) := by
  simp only [currentEntries, List.mem_filterMap]
  constructor
  · rintro ⟨u, hu, hf⟩
    by_cases hc : strLower u.email ≠ "" ∧ u.role ≠ ""
    · rw [if_pos hc] at hf
      exact ⟨u, hu, hc.1, hc.2, (Option.some_inj.mp hf).symm⟩
    · rw [if_neg hc] at hf
      exact Option.noConfusion hf
  · rintro ⟨u, hu, h1, h2, h3⟩
    refine ⟨u, hu, ?_⟩
    rw [if_pos ⟨h1, h2⟩, h3]

theorem find?_album_eq {server : List Album} {a : Album} (hmem : a ∈ server)
    (hnodup : (server.map (fun x => x.id)).Nodup) :
    lookupAlbum server a.id = some a := by
  rw [lookupAlbum]
  induction server with
  | nil => exact absurd hmem (List.not_mem_nil a)
  | cons q t ih =>
    rcases List.mem_cons.mp hmem with h | h
    · subst h
      rw [List.find?_cons_of_pos _ (by simp)]
    · have hq : q.id ≠ a.id := by
        intro hcon
        have : a.id ∈ t.map (fun x => x.id) := List.mem_map.mpr ⟨a, h, rfl⟩
        rw [← hcon] at this
        exact (List.nodup_cons.mp (by simpa using hnodup)).1 this
      rw [List.find?_cons_of_neg _ (by simpa using hq)]
      exact ih h (List.nodup_cons.mp (by simpa using hnodup)).2

theorem addRoleUser_bucket_iff (acc : List (String × List String)) (u : AlbumUserInfo)
    (r E : String) :
    (∃ us, (r, us) ∈ addRoleUser acc u ∧ E ∈ us) ↔
      (∃ us, (r, us) ∈ acc ∧ E ∈ us) ∨ (u.role = r ∧ u.email = E ∧ E ≠ "") := by
  rw [addRoleUser]
  have hacc1 : ∀ us, ((r, us) ∈
      (if u.role ∈ acc.map Prod.fst then acc else acc ++ [(u.role, [])]) ∧ E ∈ us) ↔
      (((r, us) ∈ acc ∧ E ∈ us) ∨ ((r, us) = (u.role, []) ∧ E ∈ us)) := by
    intro us
    by_cases hmem : u.role ∈ acc.map Prod.fst
    · rw [if_pos hmem]
      constructor
      · exact fun h => Or.inl h
      · rintro (h | ⟨h1, h2⟩)
        · exact h
        · rw [Prod.mk.injEq] at h1
          rw [h1.2] at h2
          exact absurd h2 (List.not_mem_nil E)
    · rw [if_neg hmem]
      simp only [List.mem_append, List.mem_singleton]
      tauto
  by_cases he : u.email = ""
  · rw [if_pos he]
    constructor
    · rintro ⟨us, h1, h2⟩
      rcases (hacc1 us).mp ⟨h1, h2⟩ with ⟨h3, h4⟩ | ⟨h3, h4⟩
      · exact Or.inl ⟨us, h3, h4⟩
      · rw [Prod.mk.injEq] at h3
        rw [h3.2] at h4
        exact absurd h4 (List.not_mem_nil E)
    · rintro (⟨us, h1, h2⟩ | ⟨h1, h2, h3⟩)
      · exact ⟨us, ((hacc1 us).mpr (Or.inl ⟨h1, h2⟩)).1, h2⟩
      · rw [he] at h2
        exact absurd h2.symm h3
  · rw [if_neg he]
    constructor
    · rintro ⟨us', hmem', hE⟩
      obtain ⟨p', hp', hf⟩ := List.mem_map.mp hmem'
      by_cases hpr : p'.1 = u.role
      · rw [if_pos hpr] at hf
        rw [Prod.mk.injEq] at hf
        obtain ⟨hf1, hf2⟩ := hf
        rw [← hf2] at hE
        rcases List.mem_append.mp hE with hE | hE
        · have hp2 : (r, p'.2) ∈
              (if u.role ∈ acc.map Prod.fst then acc else acc ++ [(u.role, [])]) := by
            rw [← hf1, Prod.mk.eta]
            exact hp'
          rcases (hacc1 p'.2).mp ⟨hp2, hE⟩ with ⟨h3, h4⟩ | ⟨h3, h4⟩
          · exact Or.inl ⟨p'.2, h3, h4⟩
          · rw [Prod.mk.injEq] at h3
            rw [h3.2] at h4
            exact absurd h4 (List.not_mem_nil E)
        · rw [List.mem_singleton] at hE
          refine Or.inr ⟨hpr.symm.trans hf1, hE.symm, ?_⟩
          intro hc
          exact he (hE.symm.trans hc)
      · rw [if_neg hpr] at hf
        have h3 := (hacc1 us').mp ⟨by rw [hf] at hp'; exact hp', hE⟩
        rcases h3 with ⟨h3, h4⟩ | ⟨h3, h4⟩
        · exact Or.inl ⟨us', h3, h4⟩
        · rw [Prod.mk.injEq] at h3
          rw [h3.2] at h4
          exact absurd h4 (List.not_mem_nil E)
    · rintro (⟨us, h1, h2⟩ | ⟨h1, h2, h3⟩)
      · by_cases hru : r = u.role
        · refine ⟨us ++ [u.email], ?_, List.mem_append.mpr (Or.inl h2)⟩
          refine List.mem_map.mpr ⟨(r, us), ((hacc1 us).mpr (Or.inl ⟨h1, h2⟩)).1, ?_⟩
          rw [if_pos (by exact hru)]
        · refine ⟨us, ?_, h2⟩
          refine List.mem_map.mpr ⟨(r, us), ((hacc1 us).mpr (Or.inl ⟨h1, h2⟩)).1, ?_⟩
          rw [if_neg (by exact fun hcon => hru hcon)]
      · have hkey : ∃ us0, (u.role, us0) ∈
            (if u.role ∈ acc.map Prod.fst then acc else acc ++ [(u.role, [])]) := by
          by_cases hmem : u.role ∈ acc.map Prod.fst
          · rw [if_pos hmem]
            obtain ⟨p0, hp0, hf0⟩ := List.mem_map.mp hmem
            exact ⟨p0.2, by rw [← hf0, Prod.mk.eta]; exact hp0⟩
          · rw [if_neg hmem]
            exact ⟨[], List.mem_append.mpr (Or.inr (List.mem_singleton.mpr rfl))⟩
        obtain ⟨us0, hus0⟩ := hkey
        refine ⟨us0 ++ [u.email], ?_, List.mem_append.mpr (Or.inr (by rw [List.mem_singleton, h2]))⟩
        rw [← h1]
        exact List.mem_map.mpr ⟨(u.role, us0), hus0, by rw [if_pos rfl]⟩

theorem role_users_mem_iff (l : List AlbumUserInfo) (r E : String) :
    (∃ us, (r, us) ∈ role_users_of l ∧ E ∈ us) ↔
      ∃ u ∈ l, u.role = r ∧ u.email = E ∧ E ≠ "" := by
  rw [role_users_of]
  have main : ∀ acc, (∃ us, (r, us) ∈ l.foldl addRoleUser acc ∧ E ∈ us) ↔
      (∃ us, (r, us) ∈ acc ∧ E ∈ us) ∨ ∃ u ∈ l, u.role = r ∧ u.email = E ∧ E ≠ "" := by
    induction l with
    | nil => simp
    | cons u t ih =>
      intro acc
      rw [List.foldl_cons, ih (addRoleUser acc u), addRoleUser_bucket_iff]
      simp only [List.mem_cons]
      constructor
      · rintro ((h | h) | ⟨u', hu', h⟩)
        · exact Or.inl h
        · exact Or.inr ⟨u, Or.inl rfl, h⟩
        · exact Or.inr ⟨u', Or.inr hu', h⟩
      · rintro (h | ⟨u', hu' | hu', h⟩)
        · exact Or.inl (Or.inl h)
        · subst hu'
          exact Or.inl (Or.inr h)
        · exact Or.inr ⟨u', hu', h⟩
  rw [main []]
  simp

theorem role_users_key_of_mem {l : List AlbumUserInfo} {r : String} {us : List String}
    (h : (r, us) ∈ role_users_of l) : ∃ u ∈ l, u.role = r := by
  have : r ∈ (role_users_of l).map Prod.fst := List.mem_map.mpr ⟨(r, us), h, rfl⟩
  rw [map_fst_role_users, mem_dedupF] at this
  obtain ⟨u, hu, hf⟩ := List.mem_map.mp this
  exact ⟨u, hu, hf⟩

theorem filterMap_range_get {α β : Type} (l : List α) (g : α → Option β) :
    (List.range l.length).filterMap (fun j => (l.get? j).bind g) = l.filterMap g := by
  induction l with
  | nil => rfl
  | cons x t ih =>
    have hcomp : List.filterMap ((fun j => ((x :: t).get? j).bind g) ∘ Nat.succ)
        (List.range t.length) = t.filterMap g := by
      have heq : ((fun j => ((x :: t).get? j).bind g) ∘ Nat.succ) =
          (fun j => (t.get? j).bind g) := by
        funext j
        rfl
      rw [heq, ih]
    rw [List.length_cons, List.range_succ_eq_map, List.filterMap_cons, List.filterMap_map,
      hcomp, List.filterMap_cons]
    rfl

theorem filterMap_eq_map_of_some {α β : Type} {l : List α} {g : α → Option β} {f : α → β}
    (h : ∀ x ∈ l, g x = some (f x)) : l.filterMap g = l.map f := by
  induction l with
  | nil => rfl
  | cons x t ih =>
    rw [List.filterMap_cons, h x (List.mem_cons_self _ _), List.map_cons,
      ih (fun y hy => h y (List.mem_cons_of_mem _ hy))]

theorem rowPairs_exportRow (r0 : String) (m : Nat) (p : ProcessedRow)
    (hu : ∀ E ∈ p.users, strTrim E = E ∧ E ≠ "") (hlen : p.users.length ≤ m) :
    rowPairs r0 (List.range' 3 m) (exportRow m p) =
      p.users.map (fun E => (strLower E, r0)) := by
  simp only [rowPairs]
  rw [List.range'_eq_map_range, List.filterMap_map]
  set tail := p.users ++ List.replicate (m - p.users.length) "" with htail
  have hcomp : ((fun i =>
      match (exportRow m p).get? i with
      | some cell =>
        if strLower (strTrim cell) = "" then none else some (strLower (strTrim cell), r0)
      | none => none) ∘ (3 + ·)) = fun j => (tail.get? j).bind (fun cell =>
        if strLower (strTrim cell) = "" then none
        else some (strLower (strTrim cell), r0)) := by
    funext j
    show (match (exportRow m p).get? (3 + j) with
      | some cell =>
        if strLower (strTrim cell) = "" then none else some (strLower (strTrim cell), r0)
      | none => none) = _
    rw [Nat.add_comm 3 j]
    show (match tail.get? j with
      | some cell =>
        if strLower (strTrim cell) = "" then none else some (strLower (strTrim cell), r0)
      | none => none) = _
    cases tail.get? j <;> rfl
  rw [hcomp]
  have hm : m = tail.length := by
    rw [htail, List.length_append, List.length_replicate]
    omega
  rw [hm, filterMap_range_get]
  rw [htail, List.filterMap_append]
  have hpad : (List.replicate (m - p.users.length) "").filterMap (fun cell =>
      if strLower (strTrim cell) = "" then none
      else some (strLower (strTrim cell), r0)) = [] := by
    rw [List.filterMap_eq_nil_iff]
    intro x hx
    rw [List.eq_of_mem_replicate hx]
    rfl
  rw [hpad, List.append_nil]
  apply filterMap_eq_map_of_some
  intro E hE
  rw [(hu E hE).1, if_neg (fun hcon => (hu E hE).2 ((strLower_eq_empty_iff E).mp hcon))]

theorem ingestRow_exportRow_skip (m : Nat) (ad : AlbumData) (p : ProcessedRow)
    (hid : strTrim p.id = p.id) (hrole : strLower (strTrim p.role) = p.role)
    (hskip : p.id = "" ∨ p.role = "") :
    ingestRow 1 2 (List.range' 3 m) ad (exportRow m p) = some ad := by
  have hrow : exportRow m p =
    p.name :: p.id :: p.role :: (p.users ++ List.replicate (m - p.users.length) "") := rfl
  rw [hrow, ingestRow]
  rw [if_neg (by simp)]
  show (if strTrim p.id = "" ∨ strLower (strTrim p.role) = "" then some ad else _) = some ad
  rw [if_pos (by rw [hid, hrole]; exact hskip)]

theorem ingestRow_exportRow_keyed (m : Nat) (ad : AlbumData) (p : ProcessedRow)
    (hid : strTrim p.id = p.id) (hrole : strLower (strTrim p.role) = p.role)
    (hu : ∀ E ∈ p.users, strTrim E = E ∧ E ≠ "") (hlen : p.users.length ≤ m)
    (hkid : p.id ≠ "") (hkrole : p.role ≠ "") :
    ingestRow 1 2 (List.range' 3 m) ad (exportRow m p) =
      some (adAdd (if p.id ∈ ad.map Prod.fst then ad else ad ++ [(p.id, ⟨[], p.role⟩)])
        p.id (p.users.map (fun E => (strLower E, p.role)))) := by
  have hrow : exportRow m p =
    p.name :: p.id :: p.role :: (p.users ++ List.replicate (m - p.users.length) "") := rfl
  rw [ingestRow]
  rw [if_neg (by rw [hrow]; simp)]
  have h1 : (exportRow m p).get? 1 = some p.id := rfl
  have h2 : (exportRow m p).get? 2 = some p.role := rfl
  show (if strTrim p.id = "" ∨ strLower (strTrim p.role) = "" then some ad
    else some (adAdd
      (if strTrim p.id ∈ ad.map Prod.fst then ad
        else ad ++ [(strTrim p.id, ⟨[], strLower (strTrim p.role)⟩)])
      (strTrim p.id)
      (rowPairs (strLower (strTrim p.role)) (List.range' 3 m) (exportRow m p)))) = _
  rw [hid, hrole]
  rw [if_neg (by rintro (h | h); exacts [hkid h, hkrole h])]
  exact congrArg some (congrArg
    (adAdd (if p.id ∈ ad.map Prod.fst then ad else ad ++ [(p.id, ⟨[], p.role⟩)]) p.id)
    (rowPairs_exportRow p.role m p hu hlen))

theorem adAdd_map_fst (ad : AlbumData) (k : String) (ps : List (String × String)) :
    (adAdd ad k ps).map Prod.fst = ad.map Prod.fst := by
  rw [adAdd, List.map_map]
  apply List.map_congr_left
  intro ent _
  by_cases h : ent.1 = k <;> simp [h]

theorem mem_adAdd {ad : AlbumData} {k : String} {ps : List (String × String)}
    {ent2 : String × BatchData} :
    ent2 ∈ adAdd ad k ps ↔ ∃ ent1 ∈ ad,
      (if ent1.1 = k then (ent1.1, (⟨ps.foldl setIns ent1.2.users, ent1.2.role⟩ : BatchData))
        else ent1) = ent2 := by
  rw [adAdd, List.mem_map]

theorem ingest_invariant (server : List Album) (m : Nat)
    (hids : (server.map (fun x => x.id)).Nodup) :
    ∀ (psL : List ProcessedRow) (ad : AlbumData),
    (∀ p ∈ psL, rowGood server m p) →
    (ad.map Prod.fst).Nodup →
    (∀ ent ∈ ad, entGood server ent) →
    ∃ ad', ingestRows 1 2 (List.range' 3 m) ad (psL.map (exportRow m)) = some ad' ∧
      (ad'.map Prod.fst).Nodup ∧
      (∀ ent ∈ ad', entGood server ent) ∧
      (∀ ent ∈ ad, ∃ ent' ∈ ad', ent'.1 = ent.1 ∧ ∀ pr ∈ ent.2.users, pr ∈ ent'.2.users) ∧
      (∀ p ∈ psL, p.role ≠ "" → p.id ≠ "" →
        ∃ ent' ∈ ad', ent'.1 = p.id ∧
          ∀ E ∈ p.users, (strLower E, p.role) ∈ ent'.2.users) := by
  intro psL
  induction psL with
  | nil =>
    intro ad _ h0 h1
    exact ⟨ad, rfl, h0, h1, fun ent h => ⟨ent, h, rfl, fun _ hpr => hpr⟩, by simp⟩
  | cons p psT ih =>
    intro ad hgood h0 h1
    have hgp := hgood p (List.mem_cons_self _ _)
    simp only [rowGood] at hgp
    obtain ⟨hpid, hprole, hplen, hpusers, a0, ha0mem, ha0id, ha0sound⟩ := hgp
    by_cases hskip : p.id = "" ∨ p.role = ""
    · rw [List.map_cons]
      rw [show ingestRows 1 2 (List.range' 3 m) ad (exportRow m p :: psT.map (exportRow m)) =
          ingestRows 1 2 (List.range' 3 m) ad (psT.map (exportRow m)) from by
        rw [ingestRows, ingestRow_exportRow_skip m ad p hpid hprole hskip]]
      obtain ⟨ad', hrun, hn, hg, hpres, hcover⟩ :=
        ih ad (fun q hq => hgood q (List.mem_cons_of_mem _ hq)) h0 h1
      refine ⟨ad', hrun, hn, hg, hpres, ?_⟩
      intro q hq hqrole hqid
      rcases List.mem_cons.mp hq with h | h
      · subst h
        rcases hskip with h | h
        · exact absurd h hqid
        · exact absurd h hqrole
      · exact hcover q h hqrole hqid
    · push_neg at hskip
      obtain ⟨hkid, hkrole⟩ := hskip
      set pairs := p.users.map (fun E => (strLower E, p.role)) with hpairs
      set ad1 := if p.id ∈ ad.map Prod.fst then ad
        else ad ++ [(p.id, (⟨[], p.role⟩ : BatchData))] with had1
      set ad2 := adAdd ad1 p.id pairs with had2
      have had1nodup : (ad1.map Prod.fst).Nodup := by
        rw [had1]
        by_cases hmem : p.id ∈ ad.map Prod.fst
        · rw [if_pos hmem]; exact h0
        · rw [if_neg hmem, List.map_append, List.nodup_append]
          refine ⟨h0, List.nodup_singleton _, ?_⟩
          intro x hx hx2
          simp only [List.map_cons, List.map_nil, List.mem_singleton] at hx2
          rw [hx2] at hx
          exact hmem hx
      have had1good : ∀ ent ∈ ad1, entGood server ent := by
        rw [had1]
        by_cases hmem : p.id ∈ ad.map Prod.fst
        · rw [if_pos hmem]; exact h1
        · rw [if_neg hmem]
          intro ent hent
          rcases List.mem_append.mp hent with h | h
          · exact h1 ent h
          · rw [List.mem_singleton.mp h]
            exact ⟨hkid, a0, ha0mem, ha0id, fun pr hpr => absurd hpr (List.not_mem_nil pr)⟩
      have had1key_ex : ∃ d1, (p.id, d1) ∈ ad1 := by
        rw [had1]
        by_cases hmem : p.id ∈ ad.map Prod.fst
        · rw [if_pos hmem]
          obtain ⟨ent, hent, hf⟩ := List.mem_map.mp hmem
          refine ⟨ent.2, ?_⟩
          rw [show (p.id, ent.2) = ent from by rw [← hf, Prod.mk.eta]]
          exact hent
        · rw [if_neg hmem]
          exact ⟨⟨[], p.role⟩, List.mem_append.mpr (Or.inr (List.mem_singleton.mpr rfl))⟩
      have had2nodup : (ad2.map Prod.fst).Nodup := by
        rw [had2, adAdd_map_fst]; exact had1nodup
      have hsound_pairs : ∀ pr ∈ pairs, soundPair a0 pr := by
        intro pr hpr
        rw [hpairs] at hpr
        obtain ⟨E, hE, hf⟩ := List.mem_map.mp hpr
        obtain ⟨u, hu, hue, hur, hloweq, hrole_eq⟩ := ha0sound hkrole E hE
        exact ⟨u, hu, hue, hur, by rw [← hf, hloweq, hrole_eq]⟩
      have had2good : ∀ ent ∈ ad2, entGood server ent := by
        intro ent2 hent2
        rw [had2] at hent2
        obtain ⟨ent1, hent1, hf⟩ := mem_adAdd.mp hent2
        by_cases hk : ent1.1 = p.id
        · rw [if_pos hk] at hf
          have hg1 := had1good ent1 hent1
          simp only [entGood] at hg1
          obtain ⟨hne, a, hamem, haid, hasound⟩ := hg1
          have haa0 : a = a0 := by
            apply List.inj_on_of_nodup_map hids hamem ha0mem
            rw [haid, ha0id, hk]
          rw [← hf]
          refine ⟨by simpa using hne, a, hamem, by simpa using haid, ?_⟩
          intro pr hpr
          have hpr' : pr ∈ pairs.foldl setIns ent1.2.users := hpr
          rcases mem_foldl_setIns.mp hpr' with h | h
          · exact hasound pr h
          · rw [haa0]
            exact hsound_pairs pr h
        · rw [if_neg hk] at hf
          rw [← hf]
          exact had1good ent1 hent1
      have hpres2 : ∀ ent ∈ ad, ∃ ent2 ∈ ad2, ent2.1 = ent.1 ∧
          ∀ pr ∈ ent.2.users, pr ∈ ent2.2.users := by
        intro ent hent
        have hent1 : ent ∈ ad1 := by
          rw [had1]
          by_cases hmem : p.id ∈ ad.map Prod.fst
          · rw [if_pos hmem]; exact hent
          · rw [if_neg hmem]; exact List.mem_append.mpr (Or.inl hent)
        by_cases hk : ent.1 = p.id
        · refine ⟨(ent.1, ⟨pairs.foldl setIns ent.2.users, ent.2.role⟩), ?_, rfl, ?_⟩
          · rw [had2]
            exact mem_adAdd.mpr ⟨ent, hent1, by rw [if_pos hk]⟩
          · intro pr hpr
            exact mem_foldl_setIns.mpr (Or.inl hpr)
        · refine ⟨ent, ?_, rfl, fun _ hpr => hpr⟩
          rw [had2]
          exact mem_adAdd.mpr ⟨ent, hent1, by rw [if_neg hk]⟩
      have hpentry : ∃ ent2 ∈ ad2, ent2.1 = p.id ∧
          ∀ E ∈ p.users, (strLower E, p.role) ∈ ent2.2.users := by
        obtain ⟨d1, hd1⟩ := had1key_ex
        refine ⟨(p.id, ⟨pairs.foldl setIns d1.users, d1.role⟩), ?_, rfl, ?_⟩
        · rw [had2]
          exact mem_adAdd.mpr ⟨(p.id, d1), hd1, by rw [if_pos rfl]⟩
        · intro E hE
          exact mem_foldl_setIns.mpr (Or.inr (by rw [hpairs]; exact List.mem_map.mpr ⟨E, hE, rfl⟩))
      obtain ⟨ad', hrun, hn, hg, hpres', hcover'⟩ :=
        ih ad2 (fun q hq => hgood q (List.mem_cons_of_mem _ hq)) had2nodup had2good
      refine ⟨ad', ?_, hn, hg, ?_, ?_⟩
      · rw [List.map_cons, ingestRows,
          ingestRow_exportRow_keyed m ad p hpid hprole hpusers hplen hkid hkrole]
        exact hrun
      · intro ent hent
        obtain ⟨ent2, hent2, hkey2, hsub2⟩ := hpres2 ent hent
        obtain ⟨ent', hent', hkey', hsub'⟩ := hpres' ent2 hent2
        exact ⟨ent', hent', by rw [hkey', hkey2], fun pr hpr => hsub' pr (hsub2 pr hpr)⟩
      · intro q hq hqrole hqid
        rcases List.mem_cons.mp hq with h | h
        · subst h
          obtain ⟨ent2, hent2, hkey2, hmem2⟩ := hpentry
          obtain ⟨ent', hent', hkey', hsub'⟩ := hpres' ent2 hent2
          exact ⟨ent', hent', by rw [hkey', hkey2], fun E hE => hsub' _ (hmem2 E hE)⟩
        · exact hcover' q h hqrole hqid

theorem runReconcile_calls_nil_ptwise (dir : Directory) (rOk : RemoveOracle)
    (sOk : ShareOracle) (cur : String → List (String × String)) (ad : AlbumData)
    (h : ∀ ent ∈ ad,
      (reconcileOneAlbum dir rOk sOk ent.1 (cur ent.1) ent.2.users).calls = []) :
    (runReconcile dir rOk sOk cur ad).1 = [] := by
  induction ad with
  | nil => rfl
  | cons ent t ih =>
    obtain ⟨k, d⟩ := ent
    simp only [runReconcile]
    rw [h (k, d) (List.mem_cons_self _ _), List.nil_append]
    exact ih (fun e he => h e (List.mem_cons_of_mem _ he))

theorem reconcile_entry_no_calls (dir : Directory) (rOk : RemoveOracle)
    (sOk : ShareOracle) (server : List Album) (a : Album) (ent : String × BatchData)
    (hids : (server.map (fun x => x.id)).Nodup)
    (hamem : a ∈ server) (haid : a.id = ent.1)
    (hdist : ∀ u1 ∈ a.albumUsers, ∀ u2 ∈ a.albumUsers, u1.email ≠ "" → u1.role ≠ "" →
      u2.email ≠ "" → u2.role ≠ "" → strLower u1.email = strLower u2.email → u1 = u2)
    (hsound : ∀ pr ∈ ent.2.users, soundPair a pr)
    (hcomplete : ∀ u ∈ a.albumUsers, u.email ≠ "" → u.role ≠ "" →
      strLower u.email ∈ ent.2.users.map Prod.fst) :
    (reconcileOneAlbum dir rOk sOk ent.1 (get_current_album_users server ent.1)
      ent.2.users).calls = [] := by
  have hcur : get_current_album_users server ent.1 = currentEntries a := by
    rw [get_current_album_users, ← haid, find?_album_eq hamem hids]
  rw [reconcileOneAlbum_calls, hcur]
  have htr : toRemove (currentEntries a) ent.2.users = [] := by
    rw [toRemove, List.filter_eq_nil_iff]
    intro e he
    rw [mem_firstKeys] at he
    obtain ⟨pr, hpr, hf⟩ := List.mem_map.mp he
    obtain ⟨u, hu, hue, hur, hprf⟩ := mem_currentEntries.mp hpr
    have hue' : u.email ≠ "" := fun hcon => hue (by rw [hcon]; rfl)
    have hmem : e ∈ ent.2.users.map Prod.fst := by
      rw [← hf, hprf]
      exact hcomplete u hu hue' hur
    simp [hmem]
  rw [htr]
  rw [show (removalPhase dir rOk ent.1 []).calls = [] from rfl, List.nil_append]
  apply sharePhase_calls_nil
  rintro ⟨e, r⟩ hp
  refine Or.inr ?_
  obtain ⟨u, hu, hue, hur, hpr⟩ := hsound (e, r) hp
  rw [Prod.mk.injEq] at hpr
  obtain ⟨he, hr⟩ := hpr
  show dlookup (currentEntries a) e = some r
  rw [he, hr]
  apply dlookup_of_unique
  · exact mem_currentEntries.mpr
      ⟨u, hu, fun hcon => hue ((strLower_eq_empty_iff u.email).mp hcon), hur, rfl⟩
  · rintro ⟨e', r'⟩ hmem' hke
    obtain ⟨u', hu', hue', hur', hpr'⟩ := mem_currentEntries.mp hmem'
    rw [Prod.mk.injEq] at hpr'
    obtain ⟨he', hr'⟩ := hpr'
    have hu'e : u'.email ≠ "" := fun hcon => hue' (by rw [hcon]; rfl)
    have huu : u' = u := by
      apply hdist u' hu' u hu hu'e hur' (fun hcon => hue ((strLower_eq_empty_iff u.email).mp
        ((strLower_eq_empty_iff u.email).mpr hcon))) hur
      · rw [← he']
        exact hke
    show r' = u.role
    rw [hr', huu]

theorem processed_rowGood (server : List Album) (m : Nat) (a : Album) (hamem : a ∈ server)
    (hid_trim : strTrim a.id = a.id)
    (hnorm : ∀ u ∈ a.albumUsers, strLower (strTrim u.role) = u.role ∧ strTrim u.email = u.email)
    (p : ProcessedRow) (hp : p ∈ processedOf a) (hlen : p.users.length ≤ m) :
    rowGood server m p := by
  rw [processedOf] at hp
  by_cases hempty : a.albumUsers = []
  · rw [if_pos hempty, List.mem_singleton] at hp
    subst hp
    exact ⟨hid_trim, rfl, hlen, by simp, a, hamem, rfl, fun hcon => absurd rfl hcon⟩
  · rw [if_neg hempty] at hp
    obtain ⟨⟨r, us⟩, hgmem, hf⟩ := List.mem_map.mp hp
    rw [← hf] at hlen ⊢
    obtain ⟨u0, hu0, hu0r⟩ := role_users_key_of_mem hgmem
    have hEfact : ∀ E ∈ us, strTrim E = E ∧ E ≠ "" := by
      intro E hE
      obtain ⟨u, hu, hur, hue, hEne⟩ :=
        (role_users_mem_iff a.albumUsers r E).mp ⟨us, hgmem, hE⟩
      refine ⟨?_, hEne⟩
      rw [← hue]
      exact (hnorm u hu).2
    refine ⟨hid_trim, ?_, hlen, hEfact, a, hamem, rfl, ?_⟩
    · show strLower (strTrim r) = r
      rw [← hu0r]
      exact (hnorm u0 hu0).1
    · intro hrne E hE
      obtain ⟨u, hu, hur, hue, hEne⟩ :=
        (role_users_mem_iff a.albumUsers r E).mp ⟨us, hgmem, hE⟩
      refine ⟨u, hu, ?_, ?_, by rw [hue], hur⟩
      · rw [hue]; exact hEne
      · rw [hur]; exact hrne

/-- C2 (amended): for a server state whose album ids are distinct and
trim-invariant, whose share-entry roles are already trimmed-lowercase,
whose emails are trim-invariant, and in which no album shares with two
distinct entries of the same lowercased email, exporting the current state
and re-ingesting the export as the desired state, then reconciling against
the unchanged server, issues zero share/update and zero removal calls. -/
theorem c2_roundtrip_no_calls (server : List Album) (dir : Directory)
    (rOk : RemoveOracle) (sOk : ShareOracle)
    (hids : (server.map (fun x => x.id)).Nodup)
    (hid_trim : ∀ a ∈ server, strTrim a.id = a.id)
    (hnorm : ∀ a ∈ server, ∀ u ∈ a.albumUsers,
      strLower (strTrim u.role) = u.role ∧ strTrim u.email = u.email)
    (hdist : ∀ a ∈ server, ∀ u1 ∈ a.albumUsers, ∀ u2 ∈ a.albumUsers,
      u1.email ≠ "" → u1.role ≠ "" → u2.email ≠ "" → u2.role ≠ "" →
      strLower u1.email = strLower u2.email → u1 = u2) :
    (roundTrip server dir rOk sOk).calls = [] := by
  rw [roundTrip]
  by_cases hserver : server = []
  · subst hserver
    rfl
  · simp only [process_albums_to_csv]
    rw [if_neg hserver]
    set ps := processed_albums server with hps
    set m := max_users ps with hmdef
    have hA : pyIndex (exportHeader m) "AlbumName" = some 0 := by
      simp [exportHeader, pyIndex]
    have hB : pyIndex (exportHeader m) "AlbumId" = some 1 := by
      simp [exportHeader, pyIndex]
    have hC : pyIndex (exportHeader m) "Role" = some 2 := by
      simp [exportHeader, pyIndex]
    have hrowGood : ∀ p ∈ ps, rowGood server m p := by
      intro p hp
      have hp2 := hp
      rw [hps, processed_albums, List.mem_flatten] at hp2
      obtain ⟨l, hl, hpl⟩ := hp2
      obtain ⟨a, hamem, hfa⟩ := List.mem_map.mp hl
      rw [← hfa] at hpl
      exact processed_rowGood server m a hamem (hid_trim a hamem) (hnorm a hamem)
        p hpl (le_max_users hp)
    obtain ⟨ad', hrun, hnodup', hgood', _, hcover'⟩ :=
      ingest_invariant server m hids ps [] hrowGood (by simp) (by simp)
    simp only [process_share_albums, hA, hB, hC, exportHeader_length,
      Nat.add_sub_cancel_left, hrun]
    show (runReconcile dir rOk sOk (get_current_album_users server) ad').1 = []
    apply runReconcile_calls_nil_ptwise
    intro ent hent
    have hg := hgood' ent hent
    simp only [entGood] at hg
    obtain ⟨hne, a, hamem, haid, hsound⟩ := hg
    apply reconcile_entry_no_calls dir rOk sOk server a ent hids hamem haid
      (hdist a hamem) hsound
    intro u hu hue hur
    obtain ⟨us, hgmem, hEmem⟩ :=
      (role_users_mem_iff a.albumUsers u.role u.email).mpr ⟨u, hu, rfl, rfl, hue⟩
    have hane : a.albumUsers ≠ [] := by
      intro hcon
      rw [hcon] at hu
      exact (List.not_mem_nil u) hu
    have hq : (⟨a.albumName, a.id, u.role, us⟩ : ProcessedRow) ∈ ps := by
      rw [hps, processed_albums, List.mem_flatten]
      refine ⟨processedOf a, List.mem_map.mpr ⟨a, hamem, rfl⟩, ?_⟩
      rw [processedOf, if_neg hane]
      exact List.mem_map.mpr ⟨(u.role, us), hgmem, rfl⟩
    have haneid : a.id ≠ "" := by rw [haid]; exact hne
    obtain ⟨ent', hent', hkey', hmem'⟩ := hcover' _ hq hur haneid
    have hee : ent' = ent :=
      List.inj_on_of_nodup_map hnodup' hent' hent (hkey'.trans haid)
    rw [← hee]
    exact List.mem_map.mpr ⟨(strLower u.email, u.role), hmem' u.email hEmem, rfl⟩

/-- Witness exercising C2 on a concrete normalized server. -/
theorem c2_roundtrip_no_calls_witness :
    ((([⟨"a1", "Al", [⟨"editor", "a@x.com"⟩, ⟨"viewer", "b@x.com"⟩]⟩] : List Album).map
        (fun x => x.id)).Nodup) ∧
      (roundTrip [⟨"a1", "Al", [⟨"editor", "a@x.com"⟩, ⟨"viewer", "b@x.com"⟩]⟩]
        [("a@x.com", "u1"), ("b@x.com", "u2")]
        (fun _ _ => true) (fun _ _ _ => true)).calls = [] :=
  ⟨by decide,
    c2_roundtrip_no_calls [⟨"a1", "Al", [⟨"editor", "a@x.com"⟩, ⟨"viewer", "b@x.com"⟩]⟩]
      [("a@x.com", "u1"), ("b@x.com", "u2")] (fun _ _ => true) (fun _ _ _ => true)
      (by decide) (by decide) (by decide) (by decide)⟩

/-- Counterexample for C2 as stated: a server whose stored role string is
Editor round-trips into a desired role editor, and reconciling against the
unchanged server issues a share/update call. -/
theorem c2_roundtrip_counterexample :
    (roundTrip [⟨"a1", "Al", [⟨"Editor", "a@x.com"⟩]⟩] [("a@x.com", "u1")]
      (fun _ _ => true) (fun _ _ _ => true)).calls ≠ [] := by
  decide

end AlbumProcessor
